import Mathlib

/-!
Verification of the geospatial alignment and reachability engine of the
`analisis_rutas` repository (backend services: `network_analyzer.py`,
`map_matcher.py`, `road_analyzer.py`, `service_area_analyzer.py`,
`locality_detector.py`).

The embedding works over exact rational coordinates (the source works over
floating-point planar coordinates); square roots, where the source compares
Euclidean distances, are either kept as `Real.sqrt` of a rational squared
distance or replaced by the equivalent squared comparison, as documented at
each definition.  Geometric operations performed by the external `shapely`
library on polygons (buffer, intersection test, union, centroid) are
abstracted into a `GeoModel` record of operations, since the library is
outside the repository; everything the repository itself computes is
translated directly.
-/

namespace AnalisisRutas

/-- A planar projected coordinate (meters in EPSG:32614, or degrees for the
map matcher which works in EPSG:4326), modelled exactly as a pair of
rationals. -/
abbrev Pt := ℚ × ℚ

/-- Squared Euclidean distance between two points.  The source computes
`sqrt` of this via `scipy`/`shapely`; all comparisons of distances in this
development are expressed through the squares, which is equivalent because
`sqrt` is monotone on nonnegative arguments. -/
def sqDist (p q : Pt) : ℚ := (p.1 - q.1) ^ 2 + (p.2 - q.2) ^ 2

theorem sqDist_nonneg (p q : Pt) : 0 ≤ sqDist p q := by
  have h1 : (0:ℚ) ≤ (p.1 - q.1) ^ 2 := sq_nonneg _
  have h2 : (0:ℚ) ≤ (p.2 - q.2) ^ 2 := sq_nonneg _
  unfold sqDist
  linarith

/-- Association-list lookup used to model the Python dictionaries
(`node_coords`, `all_reachable`, `distances`). -/
def lookupA (m : List (ℕ × ℚ)) (k : ℕ) : Option ℚ :=
  (m.find? (fun pr => pr.1 = k)).map (·.2)

/-- Association-list lookup for node coordinates. -/
def lookupP (m : List (ℕ × Pt)) (k : ℕ) : Option Pt :=
  (m.find? (fun pr => pr.1 = k)).map (·.2)

/-- The geometry of one road-network record: `shapely` `LineString`
(one coordinate sequence) or `MultiLineString` (several). -/
inductive SegGeom where
  | line (pts : List Pt)
  | multi (parts : List (List Pt))
deriving DecidableEq

/-- A row of the road-network shapefile (`rnc_gdf`): the two endpoint node
identifiers `UNION_INI` / `UNION_FIN`, the length field `LONGITUD`
(meters), the geometry (absent models a null geometry), and the attribute
columns `COND_PAV`, `ADMINISTRA`, `TIPO_VIAL` (absent models a missing /
NaN value). -/
structure RoadSegment where
  unionIni : ℕ
  unionFin : ℕ
  longitud : ℚ
  geom : Option SegGeom
  condPav : Option String
  administra : Option String
  tipoVial : Option String
deriving DecidableEq

/-- An edge of the `networkx.Graph` built by
`NetworkAnalyzer._load_and_build_network`: unordered endpoints, the
`weight` attribute (segment length) and the stored `geometry` attribute. -/
structure Edge where
  u : ℕ
  v : ℕ
  weight : ℚ
  geometry : Option SegGeom
deriving DecidableEq

/-- Whether an edge joins the unordered node pair `{u, v}`. -/
def edgeBetweenB (u v : ℕ) (e : Edge) : Bool :=
  (decide (e.u = u) && decide (e.v = v)) || (decide (e.u = v) && decide (e.v = u))

/-- `networkx.Graph.add_edge`: a `networkx.Graph` keeps at most one edge
per unordered node pair, and `add_edge` on an existing pair updates the
edge attributes (weight and geometry) in place; on a new pair it appends a
new edge. -/
def addEdge (g : List Edge) (u v : ℕ) (w : ℚ) (geo : Option SegGeom) : List Edge :=
  if g.any (edgeBetweenB u v) then
    g.map (fun e => if edgeBetweenB u v e then { e with weight := w, geometry := geo } else e)
  else
    g ++ [⟨u, v, w, geo⟩]

/-- The coordinate sequence the builder extracts from a row's geometry
(`geom.geoms[0].coords` for a `MultiLineString`, `geom.coords` for a
`LineString`). -/
def builderCoords (g : SegGeom) : List Pt :=
  match g with
  | .line pts => pts
  | .multi parts => parts.headD []

/-- The state of a `NetworkAnalyzer` after `_load_and_build_network` and
`_build_spatial_index`: the graph, the `node_coords` dictionary (insertion
order preserved, first occurrence of an identifier wins) and the `node_ids`
list backing the k-d tree (the keys of `node_coords` in order). -/
structure NetworkState where
  graph : List Edge
  nodeCoords : List (ℕ × Pt)

/-- `node_ids = list(self.node_coords.keys())`. -/
def NetworkState.nodeIds (st : NetworkState) : List ℕ := st.nodeCoords.map Prod.fst

/-- One iteration of the row loop of
`NetworkAnalyzer._load_and_build_network`: skip rows with null geometry or
fewer than two coordinates, record first-wins node coordinates, and add the
edge with `weight = LONGITUD` and the row geometry. -/
def buildStep (st : NetworkState) (s : RoadSegment) : NetworkState :=
  match s.geom with
  | none => st
  | some g =>
    let coords := builderCoords g
    if coords.length < 2 then st
    else
      let startC := coords.headD (0, 0)
      let endC := coords.getLastD (0, 0)
      let nc1 := if (lookupP st.nodeCoords s.unionIni).isSome then st.nodeCoords
                 else st.nodeCoords ++ [(s.unionIni, startC)]
      let nc2 := if (lookupP nc1 s.unionFin).isSome then nc1
                 else nc1 ++ [(s.unionFin, endC)]
      { graph := addEdge st.graph s.unionIni s.unionFin s.longitud (some g),
        nodeCoords := nc2 }

/-- `NetworkAnalyzer._load_and_build_network`: fold the row loop over the
road-segment rows, starting from the empty graph. -/
def buildNetwork (segs : List RoadSegment) : NetworkState :=
  segs.foldl buildStep { graph := [], nodeCoords := [] }

/-- The node set of the graph (a `networkx.Graph` contains exactly the
endpoints of its edges, here: every node ever passed to `add_edge`). -/
def nodesOf (g : List Edge) : List ℕ :=
  (g.flatMap (fun e => [e.u, e.v])).dedup

/-- `NetworkAnalyzer.find_nearest_node`: the k-d tree query returns the
node of minimum Euclidean distance to the query point (`None` when the
index is empty).  The node is selected here by minimum squared distance —
the same node, since `sqrt` is monotone — and the squared distance is
returned alongside it. -/
def findNearestNode (st : NetworkState) (p : Pt) : Option (ℕ × ℚ) :=
  st.nodeCoords.foldl
    (fun acc pr =>
      let d := sqDist p pr.2
      match acc with
      | none => some (pr.1, d)
      | some (n0, d0) => if d < d0 then some (pr.1, d) else some (n0, d0))
    none

/-- `NetworkAnalyzer.find_nearest_nodes_on_route`: for each point sampled
along the route (the sampling itself is performed by `shapely.interpolate`
on the route geometry, so the sample points are taken here as an input
list), keep the nearest node when its distance is strictly below the 500 m
cutoff (`if dist < 500`), deduplicated as by the Python `set`. -/
def findNearestNodesOnRoute (st : NetworkState) (samples : List Pt) : List ℕ :=
  (samples.filterMap (fun p =>
    match findNearestNode st p with
    | some (n, sq) => if sq < 500 ^ 2 then some n else none
    | none => none)).dedup

/-! ### Shortest-path search

`NetworkAnalyzer.calculate_service_area` calls
`networkx.single_source_dijkstra_path_length(graph, source, cutoff,
weight='weight')`.  That library call is external to the repository; its
implementation (`_dijkstra_multisource`) records `dist[source] = 0` when it
pops the source, before any cutoff test, and consults the cutoff only when
expanding a neighbour (`if vu_dist > cutoff: continue`).  Hence the source
is always returned with distance 0, whatever the cutoff — even a negative
one — and every other node is returned exactly when its shortest-path
distance (edge weight = segment length) is at most the cutoff.  The
shortest-path distance itself is computed here by Bellman–Ford-style
relaxation iterated once per graph node, which agrees with Dijkstra on the
nonnegative weights the repository uses. -/

/-- Set the value of an existing key of an association list. -/
def setA (m : List (ℕ × ℚ)) (k : ℕ) (x : ℚ) : List (ℕ × ℚ) :=
  m.map (fun pr => if pr.1 = k then (k, x) else pr)

/-- Record a tentative distance `x` for node `k`, keeping the smaller of
`x` and any previously recorded distance. -/
def updDist (m : List (ℕ × ℚ)) (k : ℕ) (x : ℚ) : List (ℕ × ℚ) :=
  match lookupA m k with
  | none => m ++ [(k, x)]
  | some y => if x < y then setA m k x else m

/-- Relax one directed traversal `u → v` of weight `w`. -/
def relaxDir (m : List (ℕ × ℚ)) (u v : ℕ) (w : ℚ) : List (ℕ × ℚ) :=
  match lookupA m u with
  | none => m
  | some du => updDist m v (du + w)

/-- Relax an undirected edge in both directions. -/
def relaxEdge (m : List (ℕ × ℚ)) (e : Edge) : List (ℕ × ℚ) :=
  relaxDir (relaxDir m e.u e.v e.weight) e.v e.u e.weight

/-- One relaxation pass over every edge of the graph. -/
def relaxAll (g : List Edge) (m : List (ℕ × ℚ)) : List (ℕ × ℚ) :=
  g.foldl relaxEdge m

/-- `n` relaxation passes. -/
def bfSteps (g : List Edge) (m : List (ℕ × ℚ)) : ℕ → List (ℕ × ℚ)
  | 0 => m
  | n + 1 => bfSteps g (relaxAll g m) n

/-- Shortest-path distances from `s` in `g` (edge weights = segment
lengths): the full distance map computed by relaxation, one pass per node
of the graph. -/
def dijkstraDist (g : List Edge) (s : ℕ) : List (ℕ × ℚ) :=
  bfSteps g [(s, 0)] (nodesOf g).length

/-- Model of `networkx.single_source_dijkstra_path_length(graph, s,
cutoff, weight='weight')`: the source itself is always returned (it is
assigned distance 0 before the cutoff is ever consulted), and every other
node is returned exactly when its shortest-path distance from `s` is at
most the cutoff. -/
def dijkstraCutoff (g : List Edge) (s : ℕ) (cutoff : ℚ) : List (ℕ × ℚ) :=
  (dijkstraDist g s).filter (fun pr => decide (pr.1 = s) || decide (pr.2 ≤ cutoff))

/-- The merge loop of `NetworkAnalyzer.calculate_service_area`:
`for node, dist in distances.items(): if node not in all_reachable or dist
< all_reachable[node]: all_reachable[node] = dist`. -/
def mergeMin (acc m : List (ℕ × ℚ)) : List (ℕ × ℚ) :=
  m.foldl
    (fun a pr =>
      match lookupA a pr.1 with
      | none => a ++ [pr]
      | some d0 => if pr.2 < d0 then setA a pr.1 pr.2 else a)
    acc

/-- `NetworkAnalyzer.calculate_service_area`: seed the search with the
nodes found along the route (`find_nearest_nodes_on_route`); if there are
none, return the empty service area; otherwise run the cutoff Dijkstra
from every seed that is a graph node and keep the minimum distance per
node.  Returns `(service_area_nodes, all_reachable)` with
`service_area_nodes = all_reachable.keys()`. -/
def calculateServiceArea (st : NetworkState) (samples : List Pt) (maxDistance : ℚ) :
    List ℕ × List (ℕ × ℚ) :=
  let routeNodes := findNearestNodesOnRoute st samples
  if routeNodes.isEmpty then ([], [])
  else
    let allReachable := routeNodes.foldl
      (fun acc s =>
        if s ∈ nodesOf st.graph then mergeMin acc (dijkstraCutoff st.graph s maxDistance)
        else acc)
      []
    (allReachable.map Prod.fst, allReachable)

/-- `NetworkAnalyzer.is_point_in_service_area`: find the nearest node; if
it belongs to the service area, the point is reachable iff
(point-to-node Euclidean distance) + (node's recorded network distance)
≤ `max_distance`; otherwise it is not reachable.  The source compares
`dist_to_node + network_dist <= max_distance` where `dist_to_node =
sqrt sq`; this is expressed by the equivalent squared comparison
`0 ≤ max_distance - network_dist ∧ sq ≤ (max_distance - network_dist)^2`
(the equivalence is proved in the C5 theorem below). -/
def isPointInServiceArea (st : NetworkState) (p : Pt) (serviceAreaNodes : List ℕ)
    (nodeDistances : List (ℕ × ℚ)) (maxDistance : ℚ) : Bool :=
  match findNearestNode st p with
  | none => false
  | some (n, sq) =>
    if n ∈ serviceAreaNodes then
      let nd := (lookupA nodeDistances n).getD 0
      decide (0 ≤ maxDistance - nd) && decide (sq ≤ (maxDistance - nd) ^ 2)
    else false

/-! ### Polygon operations and the zone classifier

The polygon operations (`buffer`, `intersects`, `unary_union`, `centroid`,
building a point geometry) are performed by the external `shapely`
library.  They are abstracted into a record of operations over an
arbitrary geometry type `G`; the repository's own control flow over them
is translated exactly. -/

/-- The `shapely` operations used by the zone classifier. -/
structure GeoModel (G : Type) where
  intersects : G → G → Bool
  buffer : G → ℚ → G
  centroid : G → Pt
  unionAll : List G → G
  ofSegGeom : SegGeom → G
  ofPoint : Pt → G

/-- `NetworkAnalyzer.get_service_area_polygon`: collect the geometry of
every edge with both endpoints in the service area together with a point
per service-area node, and buffer their union; `None` when the node set or
the collected geometry list is empty. -/
def getServiceAreaPolygon {G : Type} (gm : GeoModel G) (st : NetworkState)
    (serviceAreaNodes : List ℕ) (bufferDistance : ℚ) : Option G :=
  if serviceAreaNodes.isEmpty then none
  else
    let edgeGeoms := st.graph.filterMap (fun e =>
      if serviceAreaNodes.contains e.u && serviceAreaNodes.contains e.v then
        e.geometry.map gm.ofSegGeom
      else none)
    let nodePts := serviceAreaNodes.filterMap (fun n => (lookupP st.nodeCoords n).map gm.ofPoint)
    let geometries := edgeGeoms ++ nodePts
    if geometries.isEmpty then none
    else some (gm.buffer (gm.unionAll geometries) bufferDistance)

/-- A population block (`manzana`) row: its polygon geometry and its
attribute row, the demographic cells addressed by column position
(a `none` cell models a missing / `*` / unparseable value, which
`_aggregate_population.to_int` sends to 0). -/
structure Manzana (G : Type) where
  geomG : G
  cells : List (Option ℚ)

/-- `ServiceAreaAnalyzer._analyze_with_network`, returning the row indices
of the served manzanas.  First the manzanas intersecting the fixed 50 m
buffer around the projected route are collected (always served); if the
Dijkstra service area or its polygon is empty the direct set alone is
returned; otherwise the manzanas intersecting the service-area polygon are
filtered by centroid reachability and united with the direct set. -/
def analyzeWithNetwork {G : Type} (gm : GeoModel G) (st : NetworkState)
    (manzanas : List (Manzana G)) (routeProjected : G) (bufferDistanceM : ℚ)
    (samples : List Pt) : List ℕ :=
  let routeDirectBuffer := gm.buffer routeProjected 50
  let direct := (manzanas.enum.filter (fun iz => gm.intersects iz.2.geomG routeDirectBuffer)).map
    Prod.fst
  let sa := calculateServiceArea st samples bufferDistanceM
  if sa.1.isEmpty then direct
  else
    match getServiceAreaPolygon gm st sa.1 50 with
    | none => direct
    | some poly =>
      let cand := manzanas.enum.filter (fun iz => gm.intersects iz.2.geomG poly)
      direct ++ cand.filterMap (fun iz =>
        if direct.contains iz.1 then none
        else if isPointInServiceArea st (gm.centroid iz.2.geomG) sa.1 sa.2 bufferDistanceM then
          some iz.1
        else none)

/-- A locality row of the Marco Geoestadístico: polygon geometry,
municipality key `CVE_MUN` and `AMBITO` (`"Urbana"` / `"Rural"`). -/
structure Locality (G : Type) where
  geomG : G
  cveMun : String
  ambito : String

/-- Whether a locality row is actually listed by the detector: it needs a
nonempty `CVE_MUN` (the municipality entry is auto-created) and an
`AMBITO` of `Urbana` or `Rural` to be appended to a bucket. -/
def localityListed {G : Type} (l : Locality G) : Bool :=
  decide (l.cveMun ≠ "") && (decide (l.ambito = "Urbana") || decide (l.ambito = "Rural"))

/-- `LocalityDetector._detect_euclidean` (also the tail of `detect`):
localities intersecting the euclidean buffer, bucketed by `AMBITO`.
Returns the indices of the listed localities. -/
def detectEuclidean {G : Type} (gm : GeoModel G) (marco : List (Locality G))
    (buffered : G) : List ℕ :=
  (marco.enum.filter (fun il => gm.intersects il.2.geomG buffered && localityListed il.2)).map
    Prod.fst

/-- `LocalityDetector._detect_with_network`, returning the indices of the
localities listed in the output buckets together with the
`network_analysis` flag.  Localities intersecting the service-area polygon
are filtered by the centroid reachability test only — there is no
direct-corridor inclusion step in this path.  When the service area or its
polygon is empty the detector falls back to the euclidean buffer
(`gpxBuffered`). -/
def detectWithNetwork {G : Type} (gm : GeoModel G) (st : NetworkState)
    (marco : List (Locality G)) (bufferM : ℚ) (samples : List Pt)
    (gpxBuffered : G) : List ℕ × Bool :=
  let sa := calculateServiceArea st samples bufferM
  if sa.1.isEmpty then (detectEuclidean gm marco gpxBuffered, false)
  else
    match getServiceAreaPolygon gm st sa.1 50 with
    | none => (detectEuclidean gm marco gpxBuffered, false)
    | some poly =>
      let cand := marco.enum.filter (fun il => gm.intersects il.2.geomG poly)
      let included := cand.filterMap (fun il =>
        if isPointInServiceArea st (gm.centroid il.2.geomG) sa.1 sa.2 bufferM then
          if localityListed il.2 then some il.1 else none
        else none)
      (included, true)

/-! ### Demographic aggregation (`ServiceAreaAnalyzer._aggregate_population`) -/

/-- Truncation toward zero, the behaviour of Python `int(float(...))`. -/
def truncQ (q : ℚ) : ℤ := if 0 ≤ q then ⌊q⌋ else -⌊-q⌋

/-- `_aggregate_population.to_int`: missing / `*` / empty / unparseable
values (modelled by `none`) become 0, numeric strings are truncated toward
zero. -/
def toIntCell (v : Option ℚ) : ℤ :=
  match v with
  | none => 0
  | some q => truncQ q

/-- Positional cell extraction: the aggregator addresses demographic
columns by position (6, 7, 9, 11, 13, 15, 17, 19); a position beyond the
row contributes nothing (the source skips the column when the frame has
too few columns). -/
def cellAt (row : List (Option ℚ)) (i : ℕ) : ℤ :=
  toIntCell ((row.get? i).getD none)

/-- Rounding to two decimals, modelling Python `round(x, 2)` (the
half-to-even treatment of exact ties in the float source is immaterial to
the claims). -/
def round2 (q : ℚ) : ℚ := (⌊q * 100 + 1 / 2⌋ : ℤ) / 100

/-- The aggregated demographic statistics. -/
structure PopStats where
  poblacionTotal : ℤ
  poblacionFemenina : ℤ
  poblacionMasculina : ℤ
  pob0a14 : ℤ
  pob15a29 : ℤ
  pob30a59 : ℤ
  pob60mas : ℤ
  discapacidadTotal : ℤ
  discapacidadPorcentaje : ℚ
deriving DecidableEq

/-- `ServiceAreaAnalyzer._aggregate_population`: sum each positional
demographic column over the rows, then compute the disability percentage
`disability / total * 100` (rounded to 2 decimals) only when the total
population is strictly positive, leaving the initial 0 otherwise. -/
def aggregatePopulation (rows : List (List (Option ℚ))) : PopStats :=
  let pobTotal := (rows.map (fun r => cellAt r 6)).sum
  let disc := (rows.map (fun r => cellAt r 19)).sum
  { poblacionTotal := pobTotal
    poblacionFemenina := (rows.map (fun r => cellAt r 7)).sum
    poblacionMasculina := (rows.map (fun r => cellAt r 9)).sum
    pob0a14 := (rows.map (fun r => cellAt r 11)).sum
    pob15a29 := (rows.map (fun r => cellAt r 13)).sum
    pob30a59 := (rows.map (fun r => cellAt r 15)).sum
    pob60mas := (rows.map (fun r => cellAt r 17)).sum
    discapacidadTotal := disc
    discapacidadPorcentaje :=
      if 0 < pobTotal then round2 ((disc : ℚ) / (pobTotal : ℚ) * 100) else 0 }

/-! ### Map matcher (`MapMatcher.match`)

The matcher works in EPSG:4326 degrees: the tolerance in meters is
converted with `buffer_deg = buffer_m / 111000`, and a point-to-geometry
distance `d` (degrees) is reported as `d * 111000` meters.  Distances are
handled through their squares: the candidate of minimum distance is the
candidate of minimum squared distance, and `sqrt sq * 111000 ≤ tol_m` iff
`sq ≤ (tol_m / 111000)^2` (proved in the C6 theorem). -/

/-- Squared distance from a point to the segment `[a, b]`: the squared
distance to the orthogonal projection of `p` onto the segment, clamped to
its endpoints (what `shapely` computes per linear piece). -/
def sqDistPointSeg (p a b : Pt) : ℚ :=
  let den := sqDist a b
  if den = 0 then sqDist p a
  else
    let t := ((p.1 - a.1) * (b.1 - a.1) + (p.2 - a.2) * (b.2 - a.2)) / den
    let tc := max 0 (min 1 t)
    sqDist p (a.1 + tc * (b.1 - a.1), a.2 + tc * (b.2 - a.2))

/-- Squared distance from a point to a polyline (minimum over its linear
pieces; `none` for a degenerate empty polyline, which `shapely` would not
index). -/
def sqDistPolyline (p : Pt) : List Pt → Option ℚ
  | [] => none
  | [a] => some (sqDist p a)
  | a :: b :: rest =>
    match sqDistPolyline p (b :: rest) with
    | none => none
    | some m => some (min (sqDistPointSeg p a b) m)

/-- Squared distance from a point to a row geometry
(`shapely` `Point.distance(geometry)`): minimum over the parts of a
`MultiLineString`. -/
def sqDistGeom (p : Pt) (g : SegGeom) : Option ℚ :=
  match g with
  | .line pts => sqDistPolyline p pts
  | .multi parts =>
    (parts.filterMap (sqDistPolyline p)).foldl (fun acc d =>
      match acc with
      | none => some d
      | some m => some (min m d)) none

/-- An axis-aligned bounding box `(minx, miny, maxx, maxy)`. -/
structure BBox where
  minx : ℚ
  miny : ℚ
  maxx : ℚ
  maxy : ℚ

/-- The bounding box of a coordinate list (`none` when empty). -/
def bboxOfPts (pts : List Pt) : Option BBox :=
  match pts with
  | [] => none
  | q :: rest =>
    some (rest.foldl
      (fun bb r =>
        ⟨min bb.minx r.1, min bb.miny r.2, max bb.maxx r.1, max bb.maxy r.2⟩)
      ⟨q.1, q.2, q.1, q.2⟩)

/-- The bounding box of a row geometry (`none` for an empty geometry,
which the spatial index does not contain). -/
def bboxOfGeom (g : SegGeom) : Option BBox :=
  match g with
  | .line pts => bboxOfPts pts
  | .multi parts => bboxOfPts parts.flatten

/-- Whether two bounding boxes intersect (the `rnc_gdf.sindex`
rectangle-intersection query). -/
def bboxIntersects (a b : BBox) : Bool :=
  decide (a.minx ≤ b.maxx) && decide (b.minx ≤ a.maxx) &&
  decide (a.miny ≤ b.maxy) && decide (b.miny ≤ a.maxy)

/-- `point.buffer(buffer_deg).bounds`: the square of half-side
`buffer_deg` around the point. -/
def pointBufferBounds (p : Pt) (r : ℚ) : BBox :=
  ⟨p.1 - r, p.2 - r, p.1 + r, p.2 + r⟩

/-- The candidate rows returned by
`sindex.intersection(point.buffer(buffer_deg).bounds)`: rows with a
geometry whose bounding box meets the query rectangle, by row position. -/
def matchCandidates (rnc : List RoadSegment) (p : Pt) (bufferDeg : ℚ) :
    List (ℕ × SegGeom) :=
  rnc.enum.filterMap (fun ir =>
    match ir.2.geom with
    | none => none
    | some g =>
      match bboxOfGeom g with
      | none => none
      | some bb =>
        if bboxIntersects (pointBufferBounds p bufferDeg) bb then some (ir.1, g) else none)

/-- The inner candidate loop of `MapMatcher.match`: the candidate of
minimum point-to-geometry squared distance, first among ties (the source
keeps the first row with `dist < min_dist` starting from infinity). -/
def bestCandidate (p : Pt) : List (ℕ × SegGeom) → Option (ℕ × ℚ)
  | [] => none
  | (i, g) :: rest =>
    match sqDistGeom p g, bestCandidate p rest with
    | none, r => r
    | some d, none => some (i, d)
    | some d, some (i0, d0) => if d0 < d then some (i0, d0) else some (i, d)

/-- The per-point body of `MapMatcher.match`: gather candidates within the
tolerance rectangle, take the nearest, and accept the match only when its
distance in meters is at most the tolerance (`dist_m <= buffer_m`, i.e.
squared degree distance ≤ `(buffer_m/111000)^2`); otherwise the point is
unmatched (`none`).  On a match, the matched row position and the squared
degree distance are returned (the source records
`distance_m = sqrt sq * 111000`). -/
def matchPoint (rnc : List RoadSegment) (p : Pt) (bufferM : ℚ) : Option (ℕ × ℚ) :=
  let bufferDeg := bufferM / 111000
  match bestCandidate p (matchCandidates rnc p bufferDeg) with
  | none => none
  | some (i, sq) => if sq ≤ bufferDeg ^ 2 then some (i, sq) else none

/-! ### Road attribute classifier (`RoadAnalyzer.analyze`)

Segment lengths are `row.geometry.length * 111` (degrees to km): the
polyline arc length, a sum of square roots, kept exactly as a real
number.  The final `round(_, 3)` display rounding of the returned
dictionary is omitted; the aggregation itself is exact. -/

/-- Length of a polyline (sum of the Euclidean lengths of its pieces). -/
noncomputable def polylineLength : List Pt → ℝ
  | [] => 0
  | [_] => 0
  | a :: b :: rest => Real.sqrt ((sqDist a b : ℚ) : ℝ) + polylineLength (b :: rest)

/-- `shapely` geometry length: sum over the parts of a
`MultiLineString`. -/
noncomputable def segGeomLength (g : SegGeom) : ℝ :=
  match g with
  | .line pts => polylineLength pts
  | .multi parts => (parts.map polylineLength).sum

/-- `row.geometry.length * 111`: the row's length in km (a matched row
always carries a geometry; a missing one contributes 0). -/
noncomputable def segLengthKm (s : RoadSegment) : ℝ :=
  (match s.geom with
   | some g => segGeomLength g
   | none => 0) * 111

/-- `defaultdict(float)` accumulation into a category map. -/
noncomputable def addTo (m : List (String × ℝ)) (k : String) (x : ℝ) : List (String × ℝ) :=
  if m.any (fun pr => pr.1 = k) then
    m.map (fun pr => if pr.1 = k then (pr.1, pr.2 + x) else pr)
  else m ++ [(k, x)]

/-- Sum of the values of a category map. -/
noncomputable def sumVals (m : List (String × ℝ)) : ℝ := (m.map Prod.snd).sum

/-- The `COND_PAV` / `ADMINISTRA` missing-value test:
`not val or pd.isna(val) or str(val).strip() in ['N/A', 'n/a', '']`. -/
def isNAVal (v : Option String) : Bool :=
  match v with
  | none => true
  | some s => decide (s.trim = "N/A") || decide (s.trim = "n/a") || decide (s.trim = "")

/-- The surface bucket of a row: missing / `N/A` surface defaults to
`"Con pavimento"`. -/
def surfaceKey (s : RoadSegment) : String :=
  if isNAVal s.condPav then "Con pavimento" else s.condPav.getD ""

/-- The administration bucket of a row: missing / `N/A` administration
defaults to `"Municipal"`. -/
def adminKey (s : RoadSegment) : String :=
  if isNAVal s.administra then "Municipal" else s.administra.getD ""

/-- The road-class bucket of a row: missing (`not tipo or pd.isna(tipo)`,
no strip) becomes `"N/A"`. -/
def tipoKey (s : RoadSegment) : String :=
  match s.tipoVial with
  | none => "N/A"
  | some "" => "N/A"
  | some s => s

/-- The output of `RoadAnalyzer.analyze` (values exact, display rounding
omitted). -/
structure RoadStats where
  distanciaRncKm : ℝ
  superficie : List (String × ℝ)
  administracion : List (String × ℝ)
  tipoVialidad : List (String × ℝ)
  naSuperficieKm : ℝ
  naAdministracionKm : ℝ

/-- One iteration of the bucket-accumulation loop of
`RoadAnalyzer.analyze` for a unique matched row position. -/
noncomputable def analyzeStep (rnc : List RoadSegment) (st : RoadStats) (i : ℕ) : RoadStats :=
  match rnc.get? i with
  | none => st
  | some row =>
    let km := segLengthKm row
    { distanciaRncKm := st.distanciaRncKm
      superficie := addTo st.superficie (surfaceKey row) km
      administracion := addTo st.administracion (adminKey row) km
      tipoVialidad := addTo st.tipoVialidad (tipoKey row) km
      naSuperficieKm := st.naSuperficieKm + (if isNAVal row.condPav then km else 0)
      naAdministracionKm :=
        st.naAdministracionKm + (if isNAVal row.administra then km else 0) }

/-- The bucket-accumulation loop of `RoadAnalyzer.analyze` over the unique
matched row positions: `distancia_rnc_km` is the first loop's sum of the
unique rows' own lengths, the buckets are filled by the second loop. -/
noncomputable def analyzeFold (rnc : List RoadSegment) (idxs : List ℕ) : RoadStats :=
  idxs.foldl (analyzeStep rnc)
    { distanciaRncKm := ((idxs.filterMap (fun i => (rnc.get? i).map segLengthKm)).sum)
      superficie := [], administracion := [], tipoVialidad := []
      naSuperficieKm := 0, naAdministracionKm := 0 }

/-- `RoadAnalyzer.analyze`: deduplicate the matched row positions (the
source's `set(s['index'] for s in matched_segments)` — a row matched by
many track points is processed once), sum the unique rows' own lengths
into `distancia_rnc_km`, and bucket each unique row's length into its
surface, administration and road-class categories.  `matched` is the list
of the `index` fields of the matcher's `matched_segments`. -/
noncomputable def analyzeRoads (rnc : List RoadSegment) (matched : List ℕ) : RoadStats :=
  analyzeFold rnc matched.dedup

/-! ### Association-list lemmas -/

theorem lookupA_nil (k : ℕ) : lookupA [] k = none := rfl

theorem lookupA_cons (k0 : ℕ) (d0 : ℚ) (m : List (ℕ × ℚ)) (v : ℕ) :
    lookupA ((k0, d0) :: m) v = if k0 = v then some d0 else lookupA m v := by
  unfold lookupA
  by_cases h : k0 = v
  · simp [List.find?, h]
  · simp [List.find?, h]

theorem lookupA_append (m l : List (ℕ × ℚ)) (v : ℕ) :
    lookupA (m ++ l) v = (lookupA m v).orElse (fun _ => lookupA l v) := by
  induction m with
  | nil => simp [lookupA_nil, Option.orElse]
  | cons pr rest ih =>
    rcases pr with ⟨k0, d0⟩
    rw [List.cons_append, lookupA_cons, lookupA_cons]
    by_cases h : k0 = v
    · simp [h, Option.orElse]
    · simp [h, ih]

theorem lookupA_eq_none_iff (m : List (ℕ × ℚ)) (v : ℕ) :
    lookupA m v = none ↔ v ∉ m.map Prod.fst := by
  induction m with
  | nil => simp [lookupA_nil]
  | cons pr rest ih =>
    rcases pr with ⟨k0, d0⟩
    rw [lookupA_cons]
    by_cases h : k0 = v
    · simp [h]
    · simp [h, ih, Ne.symm h]

theorem lookupA_append_some (m l : List (ℕ × ℚ)) (v : ℕ) (d : ℚ)
    (h : lookupA m v = some d) : lookupA (m ++ l) v = some d := by
  induction m with
  | nil => simp [lookupA_nil] at h
  | cons pr rest ih =>
    rcases pr with ⟨k0, d0⟩
    rw [lookupA_cons] at h
    rw [List.cons_append, lookupA_cons]
    by_cases hk : k0 = v
    · rw [if_pos hk] at h ⊢
      exact h
    · rw [if_neg hk] at h ⊢
      exact ih h

theorem lookupA_append_none (m l : List (ℕ × ℚ)) (v : ℕ)
    (h : lookupA m v = none) : lookupA (m ++ l) v = lookupA l v := by
  induction m with
  | nil => simp
  | cons pr rest ih =>
    rcases pr with ⟨k0, d0⟩
    rw [lookupA_cons] at h
    rw [List.cons_append, lookupA_cons]
    by_cases hk : k0 = v
    · rw [if_pos hk] at h
      exact Option.noConfusion h
    · rw [if_neg hk] at h ⊢
      exact ih h

theorem mem_keys_iff_isSome (m : List (ℕ × ℚ)) (v : ℕ) :
    v ∈ m.map Prod.fst ↔ (lookupA m v).isSome := by
  rw [Option.isSome_iff_ne_none]
  constructor
  · intro hv hn
    exact (lookupA_eq_none_iff m v).mp hn hv
  · intro hne
    by_contra hv
    exact hne ((lookupA_eq_none_iff m v).mpr hv)

theorem lookupA_mem (m : List (ℕ × ℚ)) (v : ℕ) (d : ℚ) (h : lookupA m v = some d) :
    (v, d) ∈ m := by
  induction m with
  | nil => simp [lookupA_nil] at h
  | cons pr rest ih =>
    rcases pr with ⟨k0, d0⟩
    rw [lookupA_cons] at h
    by_cases hk : k0 = v
    · rw [if_pos hk] at h
      injection h with h
      subst hk
      subst h
      exact List.mem_cons_self _ _
    · rw [if_neg hk] at h
      exact List.mem_cons_of_mem _ (ih h)

theorem setA_cons (k0 : ℕ) (d0 : ℚ) (rest : List (ℕ × ℚ)) (k : ℕ) (x : ℚ) :
    setA ((k0, d0) :: rest) k x =
      (if k0 = k then (k, x) else (k0, d0)) :: setA rest k x := by
  unfold setA
  rw [List.map_cons]

theorem lookupA_setA (m : List (ℕ × ℚ)) (k : ℕ) (x : ℚ) (v : ℕ) :
    lookupA (setA m k x) v =
      if k = v then (lookupA m k).map (fun _ => x) else lookupA m v := by
  induction m with
  | nil => by_cases h : k = v <;> simp [setA, lookupA_nil, h]
  | cons pr rest ih =>
    rcases pr with ⟨k0, d0⟩
    rw [setA_cons]
    by_cases h0 : k0 = k <;> by_cases h : k = v
    · subst h0
      subst h
      simp [lookupA_cons]
    · subst h0
      simp [lookupA_cons, ih, h]
    · subst h
      simp [lookupA_cons, ih, h0]
    · by_cases h0v : k0 = v
      · subst h0v
        simp [lookupA_cons, h0, h]
      · simp [lookupA_cons, ih, h0, h, h0v]

theorem keys_setA (m : List (ℕ × ℚ)) (k : ℕ) (x : ℚ) :
    (setA m k x).map Prod.fst = m.map Prod.fst := by
  induction m with
  | nil => rfl
  | cons pr rest ih =>
    rcases pr with ⟨k0, d0⟩
    rw [setA_cons, List.map_cons, List.map_cons, ih]
    by_cases h0 : k0 = k
    · rw [if_pos h0]
      simp [h0]
    · rw [if_neg h0]

theorem lookupA_updDist (m : List (ℕ × ℚ)) (k : ℕ) (x : ℚ) (v : ℕ) :
    lookupA (updDist m k x) v =
      if k = v then
        (match lookupA m k with
         | none => some x
         | some y => some (min x y))
      else lookupA m v := by
  unfold updDist
  rcases hm : lookupA m k with _ | y
  · simp only [hm]
    by_cases h : k = v
    · subst h
      rw [if_pos rfl, lookupA_append_none m [(k, x)] k hm, lookupA_cons]
      simp
    · rw [if_neg h]
      rcases hv : lookupA m v with _ | d
      · rw [lookupA_append_none m [(k, x)] v hv, lookupA_cons, if_neg h, lookupA_nil]
      · rw [lookupA_append_some m [(k, x)] v d hv]
  · simp only [hm]
    by_cases hlt : x < y
    · rw [if_pos hlt, lookupA_setA]
      by_cases h : k = v
      · rw [if_pos h, if_pos h, hm]
        simp [min_eq_left (le_of_lt hlt)]
      · rw [if_neg h, if_neg h]
    · rw [if_neg hlt]
      by_cases h : k = v
      · rw [if_pos h, ← h, hm, min_eq_right (le_of_not_lt hlt)]
      · rw [if_neg h]

theorem keys_updDist (m : List (ℕ × ℚ)) (k : ℕ) (x : ℚ) :
    (updDist m k x).map Prod.fst = m.map Prod.fst ∨
    (updDist m k x).map Prod.fst = m.map Prod.fst ++ [k] := by
  unfold updDist
  rcases hm : lookupA m k with _ | y
  · simp only [hm]
    right
    simp
  · simp only [hm]
    by_cases hlt : x < y
    · left
      rw [if_pos hlt, keys_setA]
    · left
      rw [if_neg hlt]

theorem keysNodup_updDist (m : List (ℕ × ℚ)) (k : ℕ) (x : ℚ)
    (h : (m.map Prod.fst).Nodup) : ((updDist m k x).map Prod.fst).Nodup := by
  unfold updDist
  rcases hm : lookupA m k with _ | y
  · simp only [hm]
    have hk : k ∉ m.map Prod.fst := (lookupA_eq_none_iff m k).mp hm
    rw [List.map_append]
    have hone : List.map Prod.fst [(k, x)] = [k] := rfl
    rw [hone]
    refine List.Nodup.append h (List.nodup_singleton k) ?hdj
    intro a ha hb
    rw [List.mem_singleton] at hb
    subst hb
    exact hk ha
  · simp only [hm]
    by_cases hlt : x < y
    · rw [if_pos hlt, keys_setA]
      exact h
    · rw [if_neg hlt]
      exact h

/-! ### Minimum-combination of optional distances -/

/-- Combine two optional distances, keeping the minimum. -/
def minO : Option ℚ → Option ℚ → Option ℚ
  | none, b => b
  | some a, none => some a
  | some a, some b => some (min a b)

theorem minO_none_left (b : Option ℚ) : minO none b = b := rfl

theorem minO_none_right (a : Option ℚ) : minO a none = a := by
  cases a <;> rfl

theorem minO_assoc (a b c : Option ℚ) : minO (minO a b) c = minO a (minO b c) := by
  cases a <;> cases b <;> cases c <;> simp [minO, min_assoc]

/-- The minimum value of `f` over a list, as an optional value. -/
def minOverList (f : ℕ → Option ℚ) (l : List ℕ) : Option ℚ :=
  l.foldl (fun o s => minO o (f s)) none

theorem minOverList_shift (f : ℕ → Option ℚ) (l : List ℕ) (o : Option ℚ) :
    l.foldl (fun a s => minO a (f s)) o = minO o (minOverList f l) := by
  induction l generalizing o with
  | nil => rw [minOverList, List.foldl_nil, List.foldl_nil, minO_none_right]
  | cons x rest ih =>
    rw [minOverList, List.foldl_cons, List.foldl_cons, ih, minO_none_left, ih, minO_assoc]

theorem minOverList_cons (f : ℕ → Option ℚ) (x : ℕ) (l : List ℕ) :
    minOverList f (x :: l) = minO (f x) (minOverList f l) := by
  rw [minOverList, List.foldl_cons, minO_none_left, minOverList_shift]

theorem minOverList_eq_none_iff (f : ℕ → Option ℚ) (l : List ℕ) :
    minOverList f l = none ↔ ∀ s ∈ l, f s = none := by
  induction l with
  | nil => simp [minOverList]
  | cons x rest ih =>
    rw [minOverList_cons]
    rcases hx : f x with _ | d
    · rw [minO_none_left]
      simp [ih, hx]
    · constructor
      · intro h
        rcases hr : minOverList f rest with _ | d0
        · rw [hr, minO_none_right] at h
          exact Option.noConfusion h
        · rw [hr] at h
          exact Option.noConfusion h
      · intro h
        have := h x (List.mem_cons_self _ _)
        rw [hx] at this
        exact Option.noConfusion this

theorem minOverList_eq_some (f : ℕ → Option ℚ) (l : List ℕ) (d : ℚ)
    (h : minOverList f l = some d) :
    (∃ s ∈ l, f s = some d) ∧ ∀ s ∈ l, ∀ d1, f s = some d1 → d ≤ d1 := by
  induction l generalizing d with
  | nil => simp [minOverList] at h
  | cons x rest ih =>
    rw [minOverList_cons] at h
    rcases hx : f x with _ | dx
    · rw [hx, minO_none_left] at h
      rcases ih d h with ⟨⟨s, hs, hfs⟩, hmin⟩
      refine ⟨⟨s, List.mem_cons_of_mem _ hs, hfs⟩, ?_⟩
      intro s hsl d1 hd1
      rcases List.mem_cons.mp hsl with heq | hmem
      · subst heq
        rw [hx] at hd1
        exact Option.noConfusion hd1
      · exact hmin s hmem d1 hd1
    · rw [hx] at h
      rcases hr : minOverList f rest with _ | dr
      · rw [hr, minO_none_right] at h
        injection h with h
        subst h
        refine ⟨⟨x, List.mem_cons_self _ _, hx⟩, ?_⟩
        intro s hsl d1 hd1
        rcases List.mem_cons.mp hsl with heq | hmem
        · subst heq
          rw [hx] at hd1
          injection hd1 with hd1
          exact le_of_eq hd1
        · rw [((minOverList_eq_none_iff f rest).mp hr) s hmem] at hd1
          exact Option.noConfusion hd1
      · rw [hr] at h
        have hmo : minO (some dx) (some dr) = some (min dx dr) := rfl
        rw [hmo] at h
        injection h with h
        rcases ih dr hr with ⟨⟨s, hs, hfs⟩, hmin⟩
        constructor
        · rcases le_total dx dr with hle | hle
          · refine ⟨x, List.mem_cons_self _ _, ?_⟩
            rw [hx, ← h, min_eq_left hle]
          · refine ⟨s, List.mem_cons_of_mem _ hs, ?_⟩
            rw [hfs, ← h, min_eq_right hle]
        · intro s1 hsl d1 hd1
          rcases List.mem_cons.mp hsl with heq | hmem
          · subst heq
            rw [hx] at hd1
            injection hd1 with hd1
            subst hd1
            rw [← h]
            exact min_le_left _ _
          · have := hmin s1 hmem d1 hd1
            rw [← h]
            exact le_trans (min_le_right _ _) this

theorem minOverList_isSome (f : ℕ → Option ℚ) (l : List ℕ) (s : ℕ) (d : ℚ)
    (hs : s ∈ l) (hd : f s = some d) : ∃ d0, minOverList f l = some d0 ∧ d0 ≤ d := by
  rcases hmin : minOverList f l with _ | d0
  · rw [(minOverList_eq_none_iff f l).mp hmin s hs] at hd
    exact Option.noConfusion hd
  · exact ⟨d0, rfl, (minOverList_eq_some f l d0 hmin).2 s hs d hd⟩

/-! ### The merge loop keeps minima -/

theorem mergeMin_step_lookup (a : List (ℕ × ℚ)) (k : ℕ) (d : ℚ) (v : ℕ) :
    lookupA
        (match lookupA a k with
         | none => a ++ [(k, d)]
         | some d0 => if d < d0 then setA a k d else a) v =
      if k = v then minO (lookupA a v) (some d) else lookupA a v := by
  rcases ha : lookupA a k with _ | d0
  · simp only [ha]
    by_cases h : k = v
    · subst h
      rw [if_pos rfl, lookupA_append_none a [(k, d)] k ha, lookupA_cons, ha, minO_none_left]
      simp
    · rw [if_neg h]
      rcases hv : lookupA a v with _ | dv
      · rw [lookupA_append_none a [(k, d)] v hv, lookupA_cons, if_neg h, lookupA_nil]
      · rw [lookupA_append_some a [(k, d)] v dv hv]
  · simp only [ha]
    by_cases hlt : d < d0
    · rw [if_pos hlt, lookupA_setA]
      by_cases h : k = v
      · rw [if_pos h, if_pos h, ← h, ha]
        simp [minO, min_eq_right (le_of_lt hlt)]
      · rw [if_neg h, if_neg h]
    · rw [if_neg hlt]
      by_cases h : k = v
      · rw [if_pos h, ← h, ha]
        simp [minO, min_eq_left (le_of_not_lt hlt)]
      · rw [if_neg h]

theorem mergeMin_lookup (m acc : List (ℕ × ℚ)) (v : ℕ)
    (hnd : (m.map Prod.fst).Nodup) :
    lookupA (mergeMin acc m) v = minO (lookupA acc v) (lookupA m v) := by
  induction m generalizing acc with
  | nil => rw [mergeMin, List.foldl_nil, lookupA_nil, minO_none_right]
  | cons pr rest ih =>
    rcases pr with ⟨k, d⟩
    rw [List.map_cons] at hnd
    have hk : k ∉ rest.map Prod.fst := (List.nodup_cons.mp hnd).1
    have hrest : (rest.map Prod.fst).Nodup := (List.nodup_cons.mp hnd).2
    rw [mergeMin, List.foldl_cons]
    have hstep := mergeMin_step_lookup acc k d v
    have : mergeMin
        (match lookupA acc k with
         | none => acc ++ [(k, d)]
         | some d0 => if d < d0 then setA acc k d else acc) rest =
        List.foldl
          (fun a pr =>
            match lookupA a pr.1 with
            | none => a ++ [pr]
            | some d0 => if pr.2 < d0 then setA a pr.1 pr.2 else a)
          (match lookupA acc k with
           | none => acc ++ [(k, d)]
           | some d0 => if d < d0 then setA acc k d else acc) rest := rfl
    rw [← this, ih _ hrest, hstep, lookupA_cons]
    by_cases h : k = v
    · rw [if_pos h, if_pos h]
      have : lookupA rest v = none := by
        rw [lookupA_eq_none_iff]
        rw [← h]
        exact hk
      rw [this, minO_none_right]
    · rw [if_neg h, if_neg h]

/-! ### Invariants of the relaxation -/

/-- The invariant carried through the relaxation from source `s`, given
nonnegative edge weights: the key list has no duplicates, every recorded
distance is nonnegative, and the source keeps distance 0. -/
def GoodMap (s : ℕ) (m : List (ℕ × ℚ)) : Prop :=
  (m.map Prod.fst).Nodup ∧ (∀ v d, lookupA m v = some d → 0 ≤ d) ∧ lookupA m s = some 0

theorem goodMap_updDist (s : ℕ) (m : List (ℕ × ℚ)) (k : ℕ) (x : ℚ)
    (hx : 0 ≤ x) (h : GoodMap s m) : GoodMap s (updDist m k x) := by
  rcases h with ⟨hnd, hnn, hs⟩
  refine ⟨keysNodup_updDist m k x hnd, ?nn, ?src⟩
  · intro v d hv
    rw [lookupA_updDist] at hv
    by_cases hk : k = v
    · rw [if_pos hk] at hv
      rcases hm : lookupA m k with _ | y
      · rw [hm] at hv
        injection hv with hv
        rw [← hv]
        exact hx
      · rw [hm] at hv
        injection hv with hv
        rw [← hv]
        exact le_min hx (hnn k y hm)
    · rw [if_neg hk] at hv
      exact hnn v d hv
  · rw [lookupA_updDist]
    by_cases hk : k = s
    · subst hk
      rw [if_pos rfl, hs]
      simp [min_eq_right hx]
    · rw [if_neg hk]
      exact hs

theorem goodMap_relaxDir (s : ℕ) (m : List (ℕ × ℚ)) (u v : ℕ) (w : ℚ)
    (hw : 0 ≤ w) (h : GoodMap s m) : GoodMap s (relaxDir m u v w) := by
  unfold relaxDir
  rcases hm : lookupA m u with _ | du
  · simp only [hm]
    exact h
  · simp only [hm]
    have hdu : 0 ≤ du := h.2.1 u du hm
    exact goodMap_updDist s m v (du + w) (by linarith) h

theorem goodMap_relaxEdge (s : ℕ) (m : List (ℕ × ℚ)) (e : Edge)
    (hw : 0 ≤ e.weight) (h : GoodMap s m) : GoodMap s (relaxEdge m e) :=
  goodMap_relaxDir s _ e.v e.u e.weight hw (goodMap_relaxDir s m e.u e.v e.weight hw h)

theorem goodMap_relaxAll (s : ℕ) (g : List Edge) (m : List (ℕ × ℚ))
    (hw : ∀ e ∈ g, 0 ≤ e.weight) (h : GoodMap s m) : GoodMap s (relaxAll g m) := by
  induction g generalizing m with
  | nil => exact h
  | cons e rest ih =>
    rw [relaxAll, List.foldl_cons]
    exact ih (relaxEdge m e) (fun e1 he1 => hw e1 (List.mem_cons_of_mem _ he1))
      (goodMap_relaxEdge s m e (hw e (List.mem_cons_self _ _)) h)

theorem goodMap_bfSteps (s : ℕ) (g : List Edge) (m : List (ℕ × ℚ)) (n : ℕ)
    (hw : ∀ e ∈ g, 0 ≤ e.weight) (h : GoodMap s m) : GoodMap s (bfSteps g m n) := by
  induction n generalizing m with
  | zero => exact h
  | succ k ih => exact ih (relaxAll g m) (goodMap_relaxAll s g m hw h)

theorem goodMap_dijkstraDist (g : List Edge) (s : ℕ)
    (hw : ∀ e ∈ g, 0 ≤ e.weight) : GoodMap s (dijkstraDist g s) := by
  refine goodMap_bfSteps s g [(s, 0)] (nodesOf g).length hw ⟨?nd, ?nn, ?src⟩
  · simp
  · intro v d hv
    rw [lookupA_cons] at hv
    by_cases hk : s = v
    · rw [if_pos hk] at hv
      injection hv with hv
      rw [← hv]
    · rw [if_neg hk, lookupA_nil] at hv
      exact Option.noConfusion hv
  · rw [lookupA_cons, if_pos rfl]

/-- Key-list `Nodup` holds of the relaxation alone (no weight
hypothesis). -/
theorem keysNodup_relaxDir (m : List (ℕ × ℚ)) (u v : ℕ) (w : ℚ)
    (h : (m.map Prod.fst).Nodup) : ((relaxDir m u v w).map Prod.fst).Nodup := by
  unfold relaxDir
  rcases hm : lookupA m u with _ | du
  · simp only [hm]
    exact h
  · simp only [hm]
    exact keysNodup_updDist m v (du + w) h

theorem keysNodup_relaxEdge (m : List (ℕ × ℚ)) (e : Edge)
    (h : (m.map Prod.fst).Nodup) : ((relaxEdge m e).map Prod.fst).Nodup :=
  keysNodup_relaxDir _ e.v e.u e.weight (keysNodup_relaxDir m e.u e.v e.weight h)

theorem keysNodup_relaxAll (g : List Edge) (m : List (ℕ × ℚ))
    (h : (m.map Prod.fst).Nodup) : ((relaxAll g m).map Prod.fst).Nodup := by
  induction g generalizing m with
  | nil => exact h
  | cons e rest ih =>
    rw [relaxAll, List.foldl_cons]
    exact ih (relaxEdge m e) (keysNodup_relaxEdge m e h)

theorem keysNodup_bfSteps (g : List Edge) (m : List (ℕ × ℚ)) (n : ℕ)
    (h : (m.map Prod.fst).Nodup) : ((bfSteps g m n).map Prod.fst).Nodup := by
  induction n generalizing m with
  | zero => exact h
  | succ k ih => exact ih (relaxAll g m) (keysNodup_relaxAll g m h)

theorem keysNodup_dijkstraDist (g : List Edge) (s : ℕ) :
    ((dijkstraDist g s).map Prod.fst).Nodup := by
  refine keysNodup_bfSteps g [(s, 0)] (nodesOf g).length ?base
  simp

/-- The source's entry is present with a nonpositive value throughout the
relaxation, with no hypothesis on the edge weights: the entry starts at 0
and `updDist` only ever keeps or lowers it. -/
def SrcLe (s : ℕ) (m : List (ℕ × ℚ)) : Prop :=
  ∃ d, lookupA m s = some d ∧ d ≤ 0

theorem srcLe_updDist (s : ℕ) (m : List (ℕ × ℚ)) (k : ℕ) (x : ℚ)
    (h : SrcLe s m) : SrcLe s (updDist m k x) := by
  rcases h with ⟨d, hd, hle⟩
  rw [SrcLe, lookupA_updDist]
  by_cases hk : k = s
  · rw [if_pos hk, hk, hd]
    exact ⟨min x d, rfl, le_trans (min_le_right x d) hle⟩
  · rw [if_neg hk]
    exact ⟨d, hd, hle⟩

theorem srcLe_relaxDir (s : ℕ) (m : List (ℕ × ℚ)) (u v : ℕ) (w : ℚ)
    (h : SrcLe s m) : SrcLe s (relaxDir m u v w) := by
  unfold relaxDir
  rcases hm : lookupA m u with _ | du
  · simp only [hm]
    exact h
  · simp only [hm]
    exact srcLe_updDist s m v (du + w) h

theorem srcLe_relaxEdge (s : ℕ) (m : List (ℕ × ℚ)) (e : Edge)
    (h : SrcLe s m) : SrcLe s (relaxEdge m e) :=
  srcLe_relaxDir s _ e.v e.u e.weight (srcLe_relaxDir s m e.u e.v e.weight h)

theorem srcLe_relaxAll (s : ℕ) (g : List Edge) (m : List (ℕ × ℚ))
    (h : SrcLe s m) : SrcLe s (relaxAll g m) := by
  induction g generalizing m with
  | nil => exact h
  | cons e rest ih =>
    rw [relaxAll, List.foldl_cons]
    exact ih (relaxEdge m e) (srcLe_relaxEdge s m e h)

theorem srcLe_bfSteps (s : ℕ) (g : List Edge) (m : List (ℕ × ℚ)) (n : ℕ)
    (h : SrcLe s m) : SrcLe s (bfSteps g m n) := by
  induction n generalizing m with
  | zero => exact h
  | succ k ih => exact ih (relaxAll g m) (srcLe_relaxAll s g m h)

/-- The full distance map always carries an entry for the source, of value
at most 0 (exactly 0 once the weights are nonnegative); in particular the
source survives the cutoff filter whatever the cutoff. -/
theorem dijkstraDist_source_le (g : List Edge) (s : ℕ) :
    ∃ d, lookupA (dijkstraDist g s) s = some d ∧ d ≤ 0 := by
  refine srcLe_bfSteps s g [(s, 0)] (nodesOf g).length ⟨0, ?_, le_refl 0⟩
  rw [lookupA_cons, if_pos rfl]

/-! ### The cutoff filter -/

theorem lookupA_filter (m : List (ℕ × ℚ)) (p : ℕ × ℚ → Bool) (v : ℕ)
    (hnd : (m.map Prod.fst).Nodup) :
    lookupA (m.filter p) v =
      match lookupA m v with
      | none => none
      | some d => if p (v, d) then some d else none := by
  induction m with
  | nil => rfl
  | cons pr rest ih =>
    rcases pr with ⟨k, d⟩
    rw [List.map_cons] at hnd
    have hk : k ∉ rest.map Prod.fst := (List.nodup_cons.mp hnd).1
    have hrest : (rest.map Prod.fst).Nodup := (List.nodup_cons.mp hnd).2
    rw [lookupA_cons]
    by_cases hdc : p (k, d) = true
    · have hf : ((k, d) :: rest).filter p = (k, d) :: rest.filter p := by
        rw [List.filter_cons]
        simp [hdc]
      rw [hf, lookupA_cons]
      by_cases h : k = v
      · rw [if_pos h, if_pos h]
        dsimp only
        rw [← h, hdc]
        simp
      · rw [if_neg h, if_neg h]
        exact ih hrest
    · have hf : ((k, d) :: rest).filter p = rest.filter p := by
        rw [List.filter_cons]
        simp [hdc]
      rw [hf]
      by_cases h : k = v
      · rw [if_pos h]
        have hrv : lookupA rest v = none := by
          rw [lookupA_eq_none_iff, ← h]
          exact hk
        rw [ih hrest, hrv, ← h]
        simp [hdc]
      · rw [if_neg h]
        exact ih hrest

theorem dijkstraCutoff_lookup (g : List Edge) (s : ℕ) (c : ℚ) (v : ℕ) :
    lookupA (dijkstraCutoff g s c) v =
      match lookupA (dijkstraDist g s) v with
      | none => none
      | some d => if v = s ∨ d ≤ c then some d else none := by
  rw [dijkstraCutoff,
    lookupA_filter (dijkstraDist g s) _ v (keysNodup_dijkstraDist g s)]
  rcases hlv : lookupA (dijkstraDist g s) v with _ | d
  · rfl
  · dsimp only
    by_cases hvs : v = s ∨ d ≤ c
    · rw [if_pos hvs, if_pos]
      rcases hvs with h | h <;> simp [h]
    · rw [if_neg hvs, if_neg]
      rw [not_or] at hvs
      simp [hvs.1, hvs.2]

theorem keysNodup_dijkstraCutoff (g : List Edge) (s : ℕ) (c : ℚ) :
    ((dijkstraCutoff g s c).map Prod.fst).Nodup := by
  have hsub : List.Sublist ((dijkstraCutoff g s c).map Prod.fst)
      ((dijkstraDist g s).map Prod.fst) :=
    List.Sublist.map Prod.fst (List.filter_sublist _)
  exact List.Nodup.sublist hsub (keysNodup_dijkstraDist g s)

/-! ### The nearest-node query -/

/-- The fold step of `findNearestNode`. -/
def nearestStep (p : Pt) (acc : Option (ℕ × ℚ)) (pr : ℕ × Pt) : Option (ℕ × ℚ) :=
  let d := sqDist p pr.2
  match acc with
  | none => some (pr.1, d)
  | some (n0, d0) => if d < d0 then some (pr.1, d) else some (n0, d0)

theorem findNearestNode_eq_fold (st : NetworkState) (p : Pt) :
    findNearestNode st p = st.nodeCoords.foldl (nearestStep p) none := rfl

theorem nearestStep_isSome (p : Pt) (acc : Option (ℕ × ℚ)) (pr : ℕ × Pt) :
    (nearestStep p acc pr).isSome := by
  rcases acc with _ | ⟨n0, d0⟩
  · rfl
  · unfold nearestStep
    by_cases h : sqDist p pr.2 < d0 <;> simp [h]

theorem nearest_fold_isSome (p : Pt) (l : List (ℕ × Pt)) (acc : Option (ℕ × ℚ))
    (h : acc.isSome ∨ l ≠ []) : (l.foldl (nearestStep p) acc).isSome := by
  induction l generalizing acc with
  | nil =>
    rcases h with h | h
    · exact h
    · exact absurd rfl h
  | cons pr rest ih =>
    rw [List.foldl_cons]
    exact ih (nearestStep p acc pr) (Or.inl (nearestStep_isSome p acc pr))

theorem nearest_fold_le_acc (p : Pt) (l : List (ℕ × Pt)) (acc : Option (ℕ × ℚ))
    (n : ℕ) (sq : ℚ) (h : l.foldl (nearestStep p) acc = some (n, sq))
    (n0 : ℕ) (d0 : ℚ) (hacc : acc = some (n0, d0)) : sq ≤ d0 := by
  induction l generalizing acc n0 d0 with
  | nil =>
    rw [List.foldl_nil] at h
    rw [hacc] at h
    injection h with h
    injection h with h1 h2
    exact le_of_eq h2.symm
  | cons pr rest ih =>
    rw [List.foldl_cons] at h
    subst hacc
    unfold nearestStep at h
    by_cases hlt : sqDist p pr.2 < d0
    · simp only [hlt, if_pos] at h
      have := ih (some (pr.1, sqDist p pr.2)) h pr.1 (sqDist p pr.2) rfl
      exact le_trans this (le_of_lt hlt)
    · simp only [hlt, if_neg, if_false] at h
      exact ih (some (n0, d0)) h n0 d0 rfl

theorem nearest_fold_min (p : Pt) (l : List (ℕ × Pt)) (acc : Option (ℕ × ℚ))
    (n : ℕ) (sq : ℚ) (h : l.foldl (nearestStep p) acc = some (n, sq)) :
    ∀ m c, (m, c) ∈ l → sq ≤ sqDist p c := by
  induction l generalizing acc with
  | nil => intro m c hmc; simp at hmc
  | cons pr rest ih =>
    intro m c hmc
    rw [List.foldl_cons] at h
    rcases List.mem_cons.mp hmc with heq | hmem
    · have hstep : ∃ n1 d1, nearestStep p acc pr = some (n1, d1) ∧ d1 ≤ sqDist p pr.2 := by
        rcases acc with _ | ⟨n0, d0⟩
        · exact ⟨pr.1, sqDist p pr.2, rfl, le_refl _⟩
        · unfold nearestStep
          by_cases hlt : sqDist p pr.2 < d0
          · exact ⟨pr.1, sqDist p pr.2, by simp [hlt], le_refl _⟩
          · exact ⟨n0, d0, by simp [hlt], le_of_not_lt hlt⟩
      rcases hstep with ⟨n1, d1, hs, hd1⟩
      have := nearest_fold_le_acc p rest (nearestStep p acc pr) n sq h n1 d1 hs
      have hc : c = pr.2 := congrArg Prod.snd heq
      rw [hc]
      exact le_trans this hd1
    · exact ih (nearestStep p acc pr) h m c hmem

theorem nearest_fold_mem (p : Pt) (l : List (ℕ × Pt)) (acc : Option (ℕ × ℚ))
    (n : ℕ) (sq : ℚ) (h : l.foldl (nearestStep p) acc = some (n, sq)) :
    acc = some (n, sq) ∨ ∃ c, (n, c) ∈ l ∧ sq = sqDist p c := by
  induction l generalizing acc with
  | nil =>
    rw [List.foldl_nil] at h
    exact Or.inl h
  | cons pr rest ih =>
    rw [List.foldl_cons] at h
    rcases ih (nearestStep p acc pr) h with hacc | ⟨c, hc, hsq⟩
    · rcases acc with _ | ⟨n0, d0⟩
      · unfold nearestStep at hacc
        injection hacc with hacc
        have hn : pr.1 = n := congrArg Prod.fst hacc
        have hsq : sqDist p pr.2 = sq := congrArg Prod.snd hacc
        refine Or.inr ⟨pr.2, ?_, hsq.symm⟩
        rw [← hn]
        exact List.mem_cons_self _ _
      · unfold nearestStep at hacc
        by_cases hlt : sqDist p pr.2 < d0
        · simp only [hlt, if_pos] at hacc
          injection hacc with hacc
          have hn : pr.1 = n := congrArg Prod.fst hacc
          have hsq : sqDist p pr.2 = sq := congrArg Prod.snd hacc
          refine Or.inr ⟨pr.2, ?_, hsq.symm⟩
          rw [← hn]
          exact List.mem_cons_self _ _
        · simp only [hlt, if_neg, if_false] at hacc
          exact Or.inl hacc
    · exact Or.inr ⟨c, List.mem_cons_of_mem _ hc, hsq⟩

theorem findNearestNode_mem (st : NetworkState) (p : Pt) (n : ℕ) (sq : ℚ)
    (h : findNearestNode st p = some (n, sq)) :
    ∃ c, (n, c) ∈ st.nodeCoords ∧ sq = sqDist p c := by
  rw [findNearestNode_eq_fold] at h
  rcases nearest_fold_mem p st.nodeCoords none n sq h with hacc | hmem
  · exact Option.noConfusion hacc
  · exact hmem

theorem findNearestNode_min (st : NetworkState) (p : Pt) (n : ℕ) (sq : ℚ)
    (h : findNearestNode st p = some (n, sq)) :
    ∀ m c, (m, c) ∈ st.nodeCoords → sq ≤ sqDist p c := by
  rw [findNearestNode_eq_fold] at h
  exact nearest_fold_min p st.nodeCoords none n sq h

theorem findNearestNode_nonneg (st : NetworkState) (p : Pt) (n : ℕ) (sq : ℚ)
    (h : findNearestNode st p = some (n, sq)) : 0 ≤ sq := by
  rcases findNearestNode_mem st p n sq h with ⟨c, _, hsq⟩
  rw [hsq]
  exact sqDist_nonneg p c

theorem findNearestNode_isSome (st : NetworkState) (p : Pt)
    (h : st.nodeCoords ≠ []) : (findNearestNode st p).isSome := by
  rw [findNearestNode_eq_fold]
  exact nearest_fold_isSome p st.nodeCoords none (Or.inr h)

/-! ### Invariants of the graph builder -/

theorem mem_nodesOf (g : List Edge) (n : ℕ) :
    n ∈ nodesOf g ↔ ∃ e ∈ g, n = e.u ∨ n = e.v := by
  unfold nodesOf
  rw [List.mem_dedup, List.mem_flatMap]
  constructor
  · rintro ⟨e, he, hn⟩
    rcases List.mem_cons.mp hn with h1 | h2
    · exact ⟨e, he, Or.inl h1⟩
    · rw [List.mem_singleton] at h2
      exact ⟨e, he, Or.inr h2⟩
  · rintro ⟨e, he, h1 | h2⟩
    · exact ⟨e, he, by rw [h1]; exact List.mem_cons_self _ _⟩
    · exact ⟨e, he, by rw [h2]; exact List.mem_cons_of_mem _ (List.mem_singleton.mpr rfl)⟩

theorem mem_nodesOf_addEdge (g : List Edge) (u v : ℕ) (w : ℚ) (geo : Option SegGeom)
    (n : ℕ) : n ∈ nodesOf (addEdge g u v w geo) ↔ n ∈ nodesOf g ∨ n = u ∨ n = v := by
  unfold addEdge
  by_cases hany : g.any (edgeBetweenB u v)
  · rw [if_pos hany]
    rcases List.any_eq_true.mp hany with ⟨e0, he0, hb⟩
    have huv : (u ∈ nodesOf g) ∧ (v ∈ nodesOf g) := by
      unfold edgeBetweenB at hb
      rcases Bool.or_eq_true_iff.mp hb with h1 | h2
      · have h1a := (Bool.and_eq_true_iff.mp h1).1
        have h1b := (Bool.and_eq_true_iff.mp h1).2
        rw [decide_eq_true_iff] at h1a h1b
        constructor
        · exact (mem_nodesOf g u).mpr ⟨e0, he0, Or.inl h1a.symm⟩
        · exact (mem_nodesOf g v).mpr ⟨e0, he0, Or.inr h1b.symm⟩
      · have h2a := (Bool.and_eq_true_iff.mp h2).1
        have h2b := (Bool.and_eq_true_iff.mp h2).2
        rw [decide_eq_true_iff] at h2a h2b
        constructor
        · exact (mem_nodesOf g u).mpr ⟨e0, he0, Or.inr h2b.symm⟩
        · exact (mem_nodesOf g v).mpr ⟨e0, he0, Or.inl h2a.symm⟩
    have hpres : ∀ e0 : Edge,
        ((if edgeBetweenB u v e0 then { e0 with weight := w, geometry := geo } else e0) : Edge).u
          = e0.u ∧
        ((if edgeBetweenB u v e0 then { e0 with weight := w, geometry := geo } else e0) : Edge).v
          = e0.v := by
      intro e0
      by_cases h : edgeBetweenB u v e0 <;> simp [h]
    have hmm : ∀ x : ℕ,
        x ∈ nodesOf (g.map (fun e =>
          if edgeBetweenB u v e then { e with weight := w, geometry := geo } else e)) ↔
        x ∈ nodesOf g := by
      intro x
      constructor
      · intro hx
        rcases (mem_nodesOf _ x).mp hx with ⟨e, he, hor⟩
        rcases List.mem_map.mp he with ⟨e0, he0, hfe⟩
        refine (mem_nodesOf g x).mpr ⟨e0, he0, ?_⟩
        rcases hor with h1 | h2
        · left
          rw [h1, ← hfe]
          exact (hpres e0).1
        · right
          rw [h2, ← hfe]
          exact (hpres e0).2
      · intro hx
        rcases (mem_nodesOf g x).mp hx with ⟨e0, he0, hor⟩
        refine (mem_nodesOf _ x).mpr ⟨_, List.mem_map.mpr ⟨e0, he0, rfl⟩, ?_⟩
        rcases hor with h1 | h2
        · left
          rw [h1, (hpres e0).1]
        · right
          rw [h2, (hpres e0).2]
    rw [hmm n]
    constructor
    · exact fun hn => Or.inl hn
    · rintro (hn | hn | hn)
      · exact hn
      · rw [hn]
        exact huv.1
      · rw [hn]
        exact huv.2
  · rw [if_neg hany]
    constructor
    · intro hn
      rcases (mem_nodesOf _ n).mp hn with ⟨e, he, hor⟩
      rcases List.mem_append.mp he with hg | hnew
      · exact Or.inl ((mem_nodesOf g n).mpr ⟨e, hg, hor⟩)
      · rw [List.mem_singleton] at hnew
        subst hnew
        rcases hor with h1 | h2
        · exact Or.inr (Or.inl h1)
        · exact Or.inr (Or.inr h2)
    · intro hn
      rcases hn with hn | hn | hn
      · rcases (mem_nodesOf g n).mp hn with ⟨e, he, hor⟩
        exact (mem_nodesOf _ n).mpr ⟨e, List.mem_append_left _ he, hor⟩
      · exact (mem_nodesOf _ n).mpr
          ⟨⟨u, v, w, geo⟩, List.mem_append_right _ (List.mem_singleton.mpr rfl), Or.inl hn⟩
      · exact (mem_nodesOf _ n).mpr
          ⟨⟨u, v, w, geo⟩, List.mem_append_right _ (List.mem_singleton.mpr rfl), Or.inr hn⟩

/-- Keys of a conditionally extended association list. -/
theorem keys_condExt (c : Prop) [Decidable c] (m : List (ℕ × Pt)) (k : ℕ) (pt : Pt)
    (n : ℕ) (hn : n ∈ (if c then m else m ++ [(k, pt)]).map Prod.fst) :
    n ∈ m.map Prod.fst ∨ n = k := by
  by_cases h : c
  · rw [if_pos h] at hn
    exact Or.inl hn
  · rw [if_neg h] at hn
    rw [List.map_append, List.mem_append] at hn
    rcases hn with hn | hn
    · exact Or.inl hn
    · simp at hn
      exact Or.inr hn

/-- Every identifier recorded in `node_coords` belongs to the graph: the
builder records coordinates exactly for the rows on which it also calls
`add_edge`. -/
theorem buildStep_nodeIds_subset (st : NetworkState) (s : RoadSegment)
    (h : ∀ n ∈ st.nodeIds, n ∈ nodesOf st.graph) :
    ∀ n ∈ (buildStep st s).nodeIds, n ∈ nodesOf (buildStep st s).graph := by
  unfold buildStep
  rcases hg : s.geom with _ | g
  · exact h
  · by_cases hlen : (builderCoords g).length < 2
    · simp only [if_pos hlen]
      exact h
    · simp only [if_neg hlen]
      intro n hn
      simp only [NetworkState.nodeIds] at hn
      rw [mem_nodesOf_addEdge]
      rcases keys_condExt _ _ _ _ n hn with hn1 | hfin
      · rcases keys_condExt _ _ _ _ n hn1 with hn0 | hini
        · exact Or.inl (h n hn0)
        · exact Or.inr (Or.inl hini)
      · exact Or.inr (Or.inr hfin)

theorem buildNetwork_nodeIds_subset (segs : List RoadSegment) :
    ∀ n ∈ (buildNetwork segs).nodeIds, n ∈ nodesOf (buildNetwork segs).graph := by
  unfold buildNetwork
  have hgen : ∀ (l : List RoadSegment) (st : NetworkState),
      (∀ n ∈ st.nodeIds, n ∈ nodesOf st.graph) →
      ∀ n ∈ (l.foldl buildStep st).nodeIds, n ∈ nodesOf (l.foldl buildStep st).graph := by
    intro l
    induction l with
    | nil => intro st h; exact h
    | cons sg rest ih =>
      intro st h
      rw [List.foldl_cons]
      exact ih (buildStep st sg) (buildStep_nodeIds_subset st sg h)
  refine hgen segs { graph := [], nodeCoords := [] } ?base
  intro n hn
  simp [NetworkState.nodeIds] at hn

/-- Every edge weight of the built graph is the `LONGITUD` of some input
row, hence nonnegative when all the rows' lengths are. -/
theorem buildStep_weights (st : NetworkState) (s : RoadSegment)
    (hs : 0 ≤ s.longitud) (h : ∀ e ∈ st.graph, 0 ≤ e.weight) :
    ∀ e ∈ (buildStep st s).graph, 0 ≤ e.weight := by
  unfold buildStep
  rcases hg : s.geom with _ | g
  · exact h
  · by_cases hlen : (builderCoords g).length < 2
    · simp only [if_pos hlen]
      exact h
    · simp only [if_neg hlen]
      intro e he
      unfold addEdge at he
      by_cases hany : st.graph.any (edgeBetweenB s.unionIni s.unionFin)
      · rw [if_pos hany] at he
        rcases List.mem_map.mp he with ⟨e0, he0, hfe⟩
        by_cases hb : edgeBetweenB s.unionIni s.unionFin e0
        · rw [if_pos hb] at hfe
          rw [← hfe]
          exact hs
        · rw [if_neg hb] at hfe
          rw [← hfe]
          exact h e0 he0
      · rw [if_neg hany] at he
        rcases List.mem_append.mp he with hg0 | hnew
        · exact h e hg0
        · rw [List.mem_singleton] at hnew
          rw [hnew]
          exact hs

theorem buildNetwork_weights (segs : List RoadSegment)
    (hsegs : ∀ s ∈ segs, 0 ≤ s.longitud) :
    ∀ e ∈ (buildNetwork segs).graph, 0 ≤ e.weight := by
  unfold buildNetwork
  have hgen : ∀ (l : List RoadSegment) (st : NetworkState),
      (∀ s ∈ l, 0 ≤ s.longitud) → (∀ e ∈ st.graph, 0 ≤ e.weight) →
      ∀ e ∈ (l.foldl buildStep st).graph, 0 ≤ e.weight := by
    intro l
    induction l with
    | nil => intro st _ h; exact h
    | cons sg rest ih =>
      intro st hl h
      rw [List.foldl_cons]
      exact ih (buildStep st sg)
        (fun s1 hs1 => hl s1 (List.mem_cons_of_mem _ hs1))
        (buildStep_weights st sg (hl sg (List.mem_cons_self _ _)) h)
  refine hgen segs { graph := [], nodeCoords := [] } hsegs ?base
  intro e he
  simp at he

/-- A seed found along the route is a key of `node_coords`. -/
theorem seeds_mem_nodeIds (st : NetworkState) (samples : List Pt) :
    ∀ s ∈ findNearestNodesOnRoute st samples, s ∈ st.nodeIds := by
  intro s hs
  unfold findNearestNodesOnRoute at hs
  rw [List.mem_dedup, List.mem_filterMap] at hs
  rcases hs with ⟨p, hp, hf⟩
  rcases hn : findNearestNode st p with _ | pr
  · rw [hn] at hf
    exact Option.noConfusion hf
  · rcases pr with ⟨n, sq⟩
    rw [hn] at hf
    dsimp only at hf
    by_cases hsq : sq < 500 ^ 2
    · rw [if_pos hsq] at hf
      injection hf with hf
      rcases findNearestNode_mem st p n sq hn with ⟨c, hc, _⟩
      unfold NetworkState.nodeIds
      rw [← hf]
      exact List.mem_map.mpr ⟨(n, c), hc, rfl⟩
    · rw [if_neg hsq] at hf
      exact Option.noConfusion hf

/-! ### Characterization of `calculate_service_area` -/

/-- The service-area node list is exactly the key list of the distance
map. -/
theorem csa_fst (st : NetworkState) (samples : List Pt) (maxD : ℚ) :
    (calculateServiceArea st samples maxD).1 =
      (calculateServiceArea st samples maxD).2.map Prod.fst := by
  unfold calculateServiceArea
  by_cases h : (findNearestNodesOnRoute st samples).isEmpty <;> simp [h]

theorem csa_fold_lookup (g : List Edge) (maxD : ℚ) (v : ℕ) :
    ∀ (seeds : List ℕ) (acc : List (ℕ × ℚ)),
      (∀ s ∈ seeds, s ∈ nodesOf g) →
      lookupA
        (seeds.foldl
          (fun acc s =>
            if s ∈ nodesOf g then mergeMin acc (dijkstraCutoff g s maxD) else acc)
          acc) v =
      seeds.foldl (fun o s => minO o (lookupA (dijkstraCutoff g s maxD) v)) (lookupA acc v) := by
  intro seeds
  induction seeds with
  | nil =>
    intro acc hseeds
    rw [List.foldl_nil, List.foldl_nil]
  | cons s rest ih =>
    intro acc hseeds
    rw [List.foldl_cons, List.foldl_cons]
    have hsg : s ∈ nodesOf g := hseeds s (List.mem_cons_self _ _)
    rw [if_pos hsg]
    rw [ih (mergeMin acc (dijkstraCutoff g s maxD))
      (fun s1 hs1 => hseeds s1 (List.mem_cons_of_mem _ hs1))]
    rw [mergeMin_lookup (dijkstraCutoff g s maxD) acc v (keysNodup_dijkstraCutoff g s maxD)]

/-- The distance recorded by `calculate_service_area` for a node is the
minimum over the seeds of the cutoff-Dijkstra distance to it. -/
theorem csa_lookup (st : NetworkState) (samples : List Pt) (maxD : ℚ) (v : ℕ)
    (hseeds : ∀ s ∈ findNearestNodesOnRoute st samples, s ∈ nodesOf st.graph) :
    lookupA (calculateServiceArea st samples maxD).2 v =
      minOverList (fun s => lookupA (dijkstraCutoff st.graph s maxD) v)
        (findNearestNodesOnRoute st samples) := by
  unfold calculateServiceArea
  by_cases h : (findNearestNodesOnRoute st samples).isEmpty
  · rw [List.isEmpty_iff] at h
    simp only [h]
    simp [minOverList, lookupA_nil]
  · simp only [h, if_neg, Bool.false_eq_true, if_false]
    rw [csa_fold_lookup st.graph maxD v (findNearestNodesOnRoute st samples) [] hseeds]
    rw [minOverList, lookupA_nil]

/-- A concrete one-edge road network used by witnesses: one segment of
length 10 between nodes 0 and 1, lying along the x-axis. -/
def wSeg : RoadSegment := ⟨0, 1, 10, some (.line [(0, 0), (10, 0)]), none, none, none⟩

theorem dijkstraCutoff_lookup_eq_some (g : List Edge) (s : ℕ) (c : ℚ) (v : ℕ) (d : ℚ) :
    lookupA (dijkstraCutoff g s c) v = some d ↔
      lookupA (dijkstraDist g s) v = some d ∧ (v = s ∨ d ≤ c) := by
  rw [dijkstraCutoff_lookup]
  rcases hd0 : lookupA (dijkstraDist g s) v with _ | d0
  · simp
  · dsimp only
    by_cases hc : v = s ∨ d0 ≤ c
    · rw [if_pos hc]
      constructor
      · intro h
        injection h with h
        exact ⟨by rw [h], h ▸ hc⟩
      · exact fun h => h.1
    · rw [if_neg hc]
      constructor
      · intro h
        exact Option.noConfusion h
      · rintro ⟨h1, h2⟩
        injection h1 with h1
        exact absurd (h1 ▸ h2) hc

/-- Shorthand for the seed set of a route over the built network. -/
def routeSeeds (segs : List RoadSegment) (samples : List Pt) : List ℕ :=
  findNearestNodesOnRoute (buildNetwork segs) samples

theorem routeSeeds_in_graph (segs : List RoadSegment) (samples : List Pt) :
    ∀ s ∈ routeSeeds segs samples, s ∈ nodesOf (buildNetwork segs).graph :=
  fun s hs => buildNetwork_nodeIds_subset segs s
    (seeds_mem_nodeIds (buildNetwork segs) samples s hs)

/-- C3 (amended): for every route whose seed-node set is non-empty and
every nonnegative maximum distance, `calculate_service_area` returns a
node-to-distance map in which a node appears if and only if its
shortest-path distance (edge weights = segment lengths) from some seed
node is at most the maximum distance, and the distance stored for each
such node is the minimum over all seed sources of its shortest-path
distance from that seed.  The nonnegativity restriction is forced:
`networkx` returns each Dijkstra source with distance 0 regardless of the
cutoff, so at a negative maximum distance a seed appears in the map even
though no shortest-path distance is at most that maximum
(`c3_counterexample`). -/
theorem c3_service_area_characterization (segs : List RoadSegment) (samples : List Pt)
    (maxD : ℚ) (hmax : 0 ≤ maxD) (_hne : routeSeeds segs samples ≠ []) (v : ℕ) :
    ((∃ d, lookupA (calculateServiceArea (buildNetwork segs) samples maxD).2 v = some d) ↔
      ∃ s ∈ routeSeeds segs samples,
        ∃ d, lookupA (dijkstraDist (buildNetwork segs).graph s) v = some d ∧ d ≤ maxD) ∧
    (∀ d, lookupA (calculateServiceArea (buildNetwork segs) samples maxD).2 v = some d →
      (∃ s ∈ routeSeeds segs samples,
        lookupA (dijkstraDist (buildNetwork segs).graph s) v = some d) ∧
      (∀ s ∈ routeSeeds segs samples,
        ∀ d1, lookupA (dijkstraDist (buildNetwork segs).graph s) v = some d1 → d ≤ d1)) := by
  have hlook := csa_lookup (buildNetwork segs) samples maxD v (routeSeeds_in_graph segs samples)
  constructor
  · constructor
    · rintro ⟨d, hd⟩
      rw [hlook] at hd
      rcases (minOverList_eq_some _ _ d hd).1 with ⟨s, hs, hfs⟩
      rcases (dijkstraCutoff_lookup_eq_some _ s maxD v d).mp hfs with ⟨h1, h2⟩
      rcases h2 with h2 | h2
      · rcases dijkstraDist_source_le (buildNetwork segs).graph s with ⟨d0, hd0, hle0⟩
        have h1s := h1
        rw [h2] at h1s
        have h00 := h1s.symm.trans hd0
        injection h00 with h00x
        exact ⟨s, hs, d, h1, by rw [h00x]; linarith⟩
      · exact ⟨s, hs, d, h1, h2⟩
    · rintro ⟨s, hs, d, h1, h2⟩
      have hfs : lookupA (dijkstraCutoff (buildNetwork segs).graph s maxD) v = some d :=
        (dijkstraCutoff_lookup_eq_some _ s maxD v d).mpr ⟨h1, Or.inr h2⟩
      rcases minOverList_isSome
          (fun s1 => lookupA (dijkstraCutoff (buildNetwork segs).graph s1 maxD) v)
          (routeSeeds segs samples) s d hs hfs with ⟨d0, hd0, _⟩
      refine ⟨d0, ?_⟩
      rw [hlook]
      exact hd0
  · intro d hd
    rw [hlook] at hd
    have hmin := minOverList_eq_some _ _ d hd
    constructor
    · rcases hmin.1 with ⟨s, hs, hfs⟩
      exact ⟨s, hs, ((dijkstraCutoff_lookup_eq_some _ s maxD v d).mp hfs).1⟩
    · intro s hs d1 hd1
      by_cases hvs : v = s
      · exact hmin.2 s hs d1
          ((dijkstraCutoff_lookup_eq_some _ s maxD v d1).mpr ⟨hd1, Or.inl hvs⟩)
      · by_cases hc : d1 ≤ maxD
        · exact hmin.2 s hs d1
            ((dijkstraCutoff_lookup_eq_some _ s maxD v d1).mpr ⟨hd1, Or.inr hc⟩)
        · have hdc : d ≤ maxD := by
            rcases hmin.1 with ⟨s0, hs0, hfs0⟩
            rcases (dijkstraCutoff_lookup_eq_some _ s0 maxD v d).mp hfs0 with ⟨hdij0, hdisj0⟩
            rcases hdisj0 with h0 | h0
            · rcases dijkstraDist_source_le (buildNetwork segs).graph s0 with ⟨d0, hd0, hle0⟩
              rw [h0] at hdij0
              have h00 := hdij0.symm.trans hd0
              injection h00 with h00x
              rw [h00x]
              linarith
            · exact h0
          have : maxD < d1 := lt_of_not_le hc
          linarith

/-- Witness for C3 on a one-edge network: the far endpoint of the edge
appears in the distance map. -/
theorem c3_witness :
    ∃ d, lookupA (calculateServiceArea (buildNetwork [wSeg]) [(0, 0)] 700).2 1 = some d := by
  refine ((c3_service_area_characterization [wSeg] [(0, 0)] 700 (by norm_num) ?hne 1).1).mpr
    ⟨0, ?hs, 10, ?hd, by norm_num⟩
  · show routeSeeds [wSeg] [(0, 0)] ≠ []
    norm_num [routeSeeds, findNearestNodesOnRoute, buildNetwork, buildStep, builderCoords,
      findNearestNode, sqDist, lookupP, addEdge, edgeBetweenB, List.find?, List.filterMap,
      List.dedup, wSeg, nearestStep]
  · show (0 : ℕ) ∈ routeSeeds [wSeg] [(0, 0)]
    norm_num [routeSeeds, findNearestNodesOnRoute, buildNetwork, buildStep, builderCoords,
      findNearestNode, sqDist, lookupP, addEdge, edgeBetweenB, List.find?, List.filterMap,
      List.dedup, wSeg, nearestStep]
  · show lookupA (dijkstraDist (buildNetwork [wSeg]).graph 0) 1 = some 10
    norm_num [dijkstraDist, bfSteps, relaxAll, relaxEdge, relaxDir, updDist, setA, lookupA,
      buildNetwork, buildStep, builderCoords, addEdge, edgeBetweenB, nodesOf, List.find?,
      List.dedup, wSeg, sqDist, lookupP]

/-- Counterexample for C3 as stated: on the one-edge network with seed
node 0 and maximum distance -1, node 0 appears in the returned
node-to-distance map (the Dijkstra call returns its source with distance 0
regardless of the cutoff), yet no seed has a shortest-path distance to
node 0 that is at most -1 — so the claimed if-and-only-if fails at a
negative maximum distance. -/
theorem c3_counterexample :
    (∃ d, lookupA (calculateServiceArea (buildNetwork [wSeg]) [(0, 0)] (-1)).2 0 = some d) ∧
    ¬ (∃ s ∈ routeSeeds [wSeg] [(0, 0)],
        ∃ d, lookupA (dijkstraDist (buildNetwork [wSeg]).graph s) 0 = some d ∧ d ≤ -1) := by
  constructor
  · refine ⟨0, ?_⟩
    norm_num [calculateServiceArea, findNearestNodesOnRoute, buildNetwork, buildStep,
      builderCoords, findNearestNode, sqDist, lookupP, lookupA, addEdge, edgeBetweenB,
      List.find?, List.filterMap, List.dedup, nodesOf, dijkstraCutoff, dijkstraDist, bfSteps,
      relaxAll, relaxEdge, relaxDir, updDist, setA, mergeMin, List.filter, wSeg, nearestStep]
  · rintro ⟨s, hs, d, hd, hle⟩
    have hseeds : routeSeeds [wSeg] [(0, 0)] = [0] := by
      norm_num [routeSeeds, findNearestNodesOnRoute, buildNetwork, buildStep, builderCoords,
        findNearestNode, sqDist, lookupP, addEdge, edgeBetweenB, List.find?, List.filterMap,
        List.dedup, wSeg, nearestStep]
    rw [hseeds, List.mem_singleton] at hs
    subst hs
    have hdij : lookupA (dijkstraDist (buildNetwork [wSeg]).graph 0) 0 = some 0 := by
      norm_num [dijkstraDist, bfSteps, relaxAll, relaxEdge, relaxDir, updDist, setA, lookupA,
        buildNetwork, buildStep, builderCoords, addEdge, edgeBetweenB, nodesOf, List.find?,
        List.dedup, wSeg, sqDist, lookupP]
    rw [hdij] at hd
    injection hd with hd
    rw [← hd] at hle
    norm_num at hle

/-- C7: a track none of whose sample points has a graph node within the
500 m node cutoff produces the empty service area (empty node set and
empty distance map) as a normal result. -/
theorem c7_empty_seed_empty_area (st : NetworkState) (samples : List Pt) (maxD : ℚ)
    (hfar : ∀ p ∈ samples, ∀ n sq, findNearestNode st p = some (n, sq) → ¬ sq < 500 ^ 2) :
    calculateServiceArea st samples maxD = ([], []) := by
  have hseeds : findNearestNodesOnRoute st samples = [] := by
    unfold findNearestNodesOnRoute
    rw [List.dedup_eq_nil, List.filterMap_eq_nil_iff]
    intro p hp
    rcases hn : findNearestNode st p with _ | pr
    · rfl
    · rcases pr with ⟨n, sq⟩
      dsimp only
      rw [if_neg (hfar p hp n sq hn)]
  unfold calculateServiceArea
  rw [hseeds]
  rfl

/-- Witness for C7: a sample point one million meters from the one-edge
network yields the empty service area. -/
theorem c7_witness :
    calculateServiceArea (buildNetwork [wSeg]) [(1000000, 0)] 700 = ([], []) := by
  refine c7_empty_seed_empty_area (buildNetwork [wSeg]) [(1000000, 0)] 700 ?hfar
  intro p hp n sq hfind
  rw [List.mem_singleton] at hp
  subst hp
  have hval : findNearestNode (buildNetwork [wSeg]) (1000000, 0) = some (1, 999990 ^ 2) := by
    norm_num [findNearestNode, buildNetwork, buildStep, builderCoords, sqDist, lookupP,
      addEdge, edgeBetweenB, List.find?, wSeg, nearestStep]
  rw [hval] at hfind
  injection hfind with hfind
  have hsq : (999990 : ℚ) ^ 2 = sq := congrArg Prod.snd hfind
  rw [← hsq]
  norm_num

/-- C8: for a fixed track and graph, a larger maximum walking distance
gives a superset of reachable nodes. -/
theorem c8_cutoff_monotone (segs : List RoadSegment) (samples : List Pt) (d1 d2 : ℚ)
    (h12 : d1 ≤ d2) :
    ∀ v ∈ (calculateServiceArea (buildNetwork segs) samples d1).1,
      v ∈ (calculateServiceArea (buildNetwork segs) samples d2).1 := by
  intro v hv
  rw [csa_fst] at hv ⊢
  rw [mem_keys_iff_isSome] at hv ⊢
  rw [Option.isSome_iff_exists] at hv ⊢
  rcases hv with ⟨d, hd⟩
  rw [csa_lookup _ _ _ _ (routeSeeds_in_graph segs samples)] at hd
  rcases (minOverList_eq_some _ _ d hd).1 with ⟨s, hs, hfs⟩
  rcases (dijkstraCutoff_lookup_eq_some _ s d1 v d).mp hfs with ⟨hdij, hdc⟩
  have hfs2 : lookupA (dijkstraCutoff (buildNetwork segs).graph s d2) v = some d :=
    (dijkstraCutoff_lookup_eq_some _ s d2 v d).mpr
      ⟨hdij, hdc.imp (fun h => h) (fun h => le_trans h h12)⟩
  rcases minOverList_isSome
      (fun s1 => lookupA (dijkstraCutoff (buildNetwork segs).graph s1 d2) v)
      (findNearestNodesOnRoute (buildNetwork segs) samples) s d hs hfs2 with ⟨d0, hd0, _⟩
  refine ⟨d0, ?_⟩
  rw [csa_lookup _ _ _ _ (routeSeeds_in_graph segs samples)]
  exact hd0

/-- Witness for C8: the seed node reachable at cutoff 5 is still reachable
at cutoff 700. -/
theorem c8_witness :
    0 ∈ (calculateServiceArea (buildNetwork [wSeg]) [(0, 0)] 700).1 := by
  refine c8_cutoff_monotone [wSeg] [(0, 0)] 5 700 (by norm_num) 0 ?h5
  norm_num [calculateServiceArea, findNearestNodesOnRoute, buildNetwork, buildStep,
    builderCoords, findNearestNode, sqDist, lookupP, lookupA, addEdge, edgeBetweenB,
    List.find?, List.filterMap, List.dedup, nodesOf, dijkstraCutoff, dijkstraDist, bfSteps,
    relaxAll, relaxEdge, relaxDir, updDist, setA, mergeMin, List.filter, wSeg, nearestStep]

/-- C10 (amended): for every nonnegative maximum distance, every recorded
service-area distance lies in `[0, max]`, and every seed node appears with
distance 0.  The restriction to nonnegative maximum distances is forced by
`c10_counterexample` (at a negative maximum the seed's recorded distance 0
exceeds the maximum); the nonnegative-segment-length hypothesis is not
part of the amendment but makes explicit the data model of the LONGITUD
field (lengths in metres), over which the embedding's quantifier ranges. -/
theorem c10_bounds_and_seeds (segs : List RoadSegment) (samples : List Pt) (maxD : ℚ)
    (hseg : ∀ s ∈ segs, 0 ≤ s.longitud) (hmax : 0 ≤ maxD) :
    (∀ v d, lookupA (calculateServiceArea (buildNetwork segs) samples maxD).2 v = some d →
      0 ≤ d ∧ d ≤ maxD) ∧
    (∀ s ∈ routeSeeds segs samples,
      lookupA (calculateServiceArea (buildNetwork segs) samples maxD).2 s = some 0) := by
  have hw : ∀ e ∈ (buildNetwork segs).graph, 0 ≤ e.weight := buildNetwork_weights segs hseg
  constructor
  · intro v d hd
    rw [csa_lookup _ _ _ _ (routeSeeds_in_graph segs samples)] at hd
    rcases (minOverList_eq_some _ _ d hd).1 with ⟨s, hs, hfs⟩
    rcases (dijkstraCutoff_lookup_eq_some _ s maxD v d).mp hfs with ⟨hdij, hdc⟩
    refine ⟨(goodMap_dijkstraDist (buildNetwork segs).graph s hw).2.1 v d hdij, ?_⟩
    rcases hdc with hvs | hdc
    · have hsrc : lookupA (dijkstraDist (buildNetwork segs).graph s) s = some 0 :=
        (goodMap_dijkstraDist (buildNetwork segs).graph s hw).2.2
      rw [hvs] at hdij
      have h00 := hdij.symm.trans hsrc
      injection h00 with h00x
      rw [h00x]
      exact hmax
    · exact hdc
  · intro s hs
    have hsrc : lookupA (dijkstraDist (buildNetwork segs).graph s) s = some 0 :=
      (goodMap_dijkstraDist (buildNetwork segs).graph s hw).2.2
    have hfs : lookupA (dijkstraCutoff (buildNetwork segs).graph s maxD) s = some 0 :=
      (dijkstraCutoff_lookup_eq_some _ s maxD s 0).mpr ⟨hsrc, Or.inl rfl⟩
    rw [csa_lookup _ _ _ _ (routeSeeds_in_graph segs samples)]
    rcases minOverList_isSome
        (fun s1 => lookupA (dijkstraCutoff (buildNetwork segs).graph s1 maxD) s)
        (routeSeeds segs samples) s 0 hs hfs with ⟨d0, hd0, hle⟩
    have hge : 0 ≤ d0 := by
      rcases (minOverList_eq_some _ _ d0 hd0).1 with ⟨s1, hs1, hfs1⟩
      rcases (dijkstraCutoff_lookup_eq_some _ s1 maxD s d0).mp hfs1 with ⟨hdij1, _⟩
      exact (goodMap_dijkstraDist (buildNetwork segs).graph s1 hw).2.1 s d0 hdij1
    have hz : d0 = 0 := le_antisymm hle hge
    have hgoal : minOverList
        (fun s1 => lookupA (dijkstraCutoff (buildNetwork segs).graph s1 maxD) s)
        (routeSeeds segs samples) = some 0 := by
      rw [hd0, hz]
    exact hgoal

/-- Counterexample for C10 as stated: with the (meaningless but allowed by
the claim) maximum distance −1, the seed node of the one-edge network
appears in the returned distance map with distance 0 — `networkx` records
the Dijkstra source with distance 0 before the cutoff is ever consulted —
and that recorded value 0 exceeds the maximum distance −1, so the claimed
bound "every distance value is at most the maximum distance" fails. -/
theorem c10_counterexample :
    0 ∈ routeSeeds [wSeg] [(0, 0)] ∧
    lookupA (calculateServiceArea (buildNetwork [wSeg]) [(0, 0)] (-1)).2 0 = some 0 ∧
    ¬ ((0 : ℚ) ≤ -1) := by
  refine ⟨?h1, ?h2, by norm_num⟩
  · norm_num [routeSeeds, findNearestNodesOnRoute, buildNetwork, buildStep, builderCoords,
      findNearestNode, sqDist, lookupP, addEdge, edgeBetweenB, List.find?, List.filterMap,
      List.dedup, wSeg, nearestStep]
  · norm_num [calculateServiceArea, findNearestNodesOnRoute, buildNetwork, buildStep,
      builderCoords, findNearestNode, sqDist, lookupP, lookupA, addEdge, edgeBetweenB,
      List.find?, List.filterMap, List.dedup, nodesOf, dijkstraCutoff, dijkstraDist, bfSteps,
      relaxAll, relaxEdge, relaxDir, updDist, setA, mergeMin, List.filter, wSeg, nearestStep]

/-- Witness for the amended C10: on the one-edge network the seed node 0
is recorded with distance 0. -/
theorem c10_witness :
    lookupA (calculateServiceArea (buildNetwork [wSeg]) [(0, 0)] 700).2 0 = some 0 := by
  refine (c10_bounds_and_seeds [wSeg] [(0, 0)] 700 ?hseg (by norm_num)).2 0 ?hs
  · intro s hs
    rw [List.mem_singleton] at hs
    rw [hs]
    norm_num [wSeg]
  · norm_num [routeSeeds, findNearestNodesOnRoute, buildNetwork, buildStep, builderCoords,
      findNearestNode, sqDist, lookupP, addEdge, edgeBetweenB, List.find?, List.filterMap,
      List.dedup, wSeg, nearestStep]

/-- C5: `is_point_in_service_area` locates the single nearest graph node
(its squared distance is minimal over every recorded node coordinate) and,
on the service area returned by `calculate_service_area`, classifies the
point reachable if and only if that node carries a recorded shortest
network distance (i.e. is in the reachable set) and the Euclidean
point-to-node distance plus that network distance is at most the maximum
distance; when the nearest node is not in the reachable set the point is
classified unreachable. -/
theorem c5_point_reachability (st : NetworkState) (samples : List Pt) (maxD : ℚ)
    (p : Pt) (n : ℕ) (sq : ℚ)
    (hn : findNearestNode st p = some (n, sq)) :
    (∀ m c, (m, c) ∈ st.nodeCoords → sq ≤ sqDist p c) ∧
    (isPointInServiceArea st p (calculateServiceArea st samples maxD).1
        (calculateServiceArea st samples maxD).2 maxD = true ↔
      ∃ nd, lookupA (calculateServiceArea st samples maxD).2 n = some nd ∧
        Real.sqrt (sq : ℝ) + (nd : ℝ) ≤ (maxD : ℝ)) ∧
    (n ∉ (calculateServiceArea st samples maxD).1 →
      isPointInServiceArea st p (calculateServiceArea st samples maxD).1
        (calculateServiceArea st samples maxD).2 maxD = false) := by
  have hsqnn : 0 ≤ sq := findNearestNode_nonneg st p n sq hn
  have hpoint : ∀ b : List ℕ, ∀ m : List (ℕ × ℚ),
      isPointInServiceArea st p b m maxD =
        if n ∈ b then
          ((decide (0 ≤ maxD - (lookupA m n).getD 0)) &&
            (decide (sq ≤ (maxD - (lookupA m n).getD 0) ^ 2)))
        else false := by
    intro b m
    unfold isPointInServiceArea
    rw [hn]
  refine ⟨findNearestNode_min st p n sq hn, ?iff, ?outside⟩
  · rw [hpoint]
    by_cases hmem : n ∈ (calculateServiceArea st samples maxD).1
    · rw [if_pos hmem]
      have hsome : (lookupA (calculateServiceArea st samples maxD).2 n).isSome := by
        rw [← mem_keys_iff_isSome, ← csa_fst]
        exact hmem
      rcases Option.isSome_iff_exists.mp hsome with ⟨nd, hnd⟩
      rw [hnd]
      constructor
      · intro h
        rcases Bool.and_eq_true_iff.mp h with ⟨h1, h2⟩
        rw [decide_eq_true_iff] at h1 h2
        refine ⟨nd, rfl, ?_⟩
        have hy : (0 : ℝ) ≤ ((maxD - nd : ℚ) : ℝ) := by
          exact_mod_cast h1
        have hx : ((sq : ℚ) : ℝ) ≤ ((maxD - nd : ℚ) : ℝ) ^ 2 := by
          exact_mod_cast h2
        have := Real.sqrt_le_iff.mpr ⟨hy, hx⟩
        push_cast at this
        linarith
      · rintro ⟨nd1, hnd1, hle⟩
        injection hnd1 with hnd1
        subst hnd1
        have hsqrt : Real.sqrt (sq : ℝ) ≤ ((maxD - nd : ℚ) : ℝ) := by
          push_cast
          linarith
        rcases Real.sqrt_le_iff.mp hsqrt with ⟨hy, hx⟩
        rw [Bool.and_eq_true_iff]
        constructor
        · rw [decide_eq_true_iff]
          exact_mod_cast hy
        · rw [decide_eq_true_iff]
          exact_mod_cast hx
    · rw [if_neg hmem]
      constructor
      · intro h
        exact Bool.noConfusion h
      · rintro ⟨nd, hnd, _⟩
        have : n ∈ (calculateServiceArea st samples maxD).1 := by
          rw [csa_fst, mem_keys_iff_isSome, hnd]
          rfl
        exact absurd this hmem
  · intro hmem
    rw [hpoint, if_neg hmem]

/-- Witness for C5: the point `(13, 4)` has nearest node 1 at squared
distance 25 (distance 5); with network distance 10 the total 15 is within
700, so the point is classified reachable. -/
theorem c5_witness :
    isPointInServiceArea (buildNetwork [wSeg]) (13, 4)
      (calculateServiceArea (buildNetwork [wSeg]) [(0, 0)] 700).1
      (calculateServiceArea (buildNetwork [wSeg]) [(0, 0)] 700).2 700 = true := by
  have hn : findNearestNode (buildNetwork [wSeg]) (13, 4) = some (1, 25) := by
    norm_num [findNearestNode, buildNetwork, buildStep, builderCoords, sqDist, lookupP,
      addEdge, edgeBetweenB, List.find?, wSeg, nearestStep]
  refine ((c5_point_reachability (buildNetwork [wSeg]) [(0, 0)] 700 (13, 4) 1 25 hn).2.1).mpr
    ⟨10, ?hlook, ?hle⟩
  · norm_num [calculateServiceArea, findNearestNodesOnRoute, buildNetwork, buildStep,
      builderCoords, findNearestNode, sqDist, lookupP, lookupA, addEdge, edgeBetweenB,
      List.find?, List.filterMap, List.dedup, nodesOf, dijkstraCutoff, dijkstraDist, bfSteps,
      relaxAll, relaxEdge, relaxDir, updDist, setA, mergeMin, List.filter, wSeg, nearestStep]
  · have h25 : Real.sqrt ((25 : ℚ) : ℝ) = 5 := by
      rw [show ((25 : ℚ) : ℝ) = 5 ^ 2 by norm_num]
      exact Real.sqrt_sq (by norm_num)
    rw [h25]
    norm_num

/-- C1 (amended): every population block (manzana) whose geometry
intersects the fixed 50 m buffer around the projected track is in the
served set computed by `ServiceAreaAnalyzer._analyze_with_network`,
whatever its centroid's distance to the network; the analogous guarantee
does not hold for localities (see the counterexample). -/
theorem c1_direct_corridor_manzana_served {G : Type} (gm : GeoModel G)
    (st : NetworkState) (manzanas : List (Manzana G)) (routeProjected : G)
    (bufferM : ℚ) (samples : List Pt) (i : ℕ) (z : Manzana G)
    (hmem : (i, z) ∈ manzanas.enum)
    (hint : gm.intersects z.geomG (gm.buffer routeProjected 50) = true) :
    i ∈ analyzeWithNetwork gm st manzanas routeProjected bufferM samples := by
  have hdirect : i ∈ (manzanas.enum.filter
      (fun iz => gm.intersects iz.2.geomG (gm.buffer routeProjected 50))).map Prod.fst := by
    refine List.mem_map.mpr ⟨(i, z), ?_, rfl⟩
    exact List.mem_filter.mpr ⟨hmem, hint⟩
  unfold analyzeWithNetwork
  dsimp only
  split
  · exact hdirect
  · split
    · exact hdirect
    · exact List.mem_append_left _ hdirect

/-- A geometry model over `Unit` in which every geometry intersects every
other (in particular, every zone meets the 50 m track corridor) and every
centroid sits at `(100000, 0)`, far from the one-edge network. -/
def farGeo : GeoModel Unit where
  intersects := fun _ _ => true
  buffer := fun _ _ => ()
  centroid := fun _ => (100000, 0)
  unionAll := fun _ => ()
  ofSegGeom := fun _ => ()
  ofPoint := fun _ => ()

/-- An urban locality of municipality "001" whose (trivial) geometry
intersects everything, with its centroid far from the network. -/
def farLoc : Locality Unit := ⟨(), "001", "Urbana"⟩

/-- Counterexample for C1 as stated: the locality's geometry intersects
the 50 m corridor buffer of the track (first conjunct), the detector does
run its network path (third conjunct), and yet the locality is listed in
no bucket of the output (second conjunct) — its centroid fails the
reachability test and `_detect_with_network` has no direct-corridor
inclusion step. -/
theorem c1_locality_counterexample :
    farGeo.intersects farLoc.geomG (farGeo.buffer () 50) = true ∧
    (detectWithNetwork farGeo (buildNetwork [wSeg]) [farLoc] 700 [(0, 0)] ()).1 = [] ∧
    (detectWithNetwork farGeo (buildNetwork [wSeg]) [farLoc] 700 [(0, 0)] ()).2 = true := by
  refine ⟨rfl, ?h2, ?h3⟩ <;>
  · norm_num [detectWithNetwork, detectEuclidean, getServiceAreaPolygon, isPointInServiceArea,
      localityListed, calculateServiceArea, findNearestNodesOnRoute, buildNetwork, buildStep,
      builderCoords, findNearestNode, sqDist, lookupP, lookupA, addEdge, edgeBetweenB,
      List.find?, List.filterMap, List.dedup, nodesOf, dijkstraCutoff, dijkstraDist, bfSteps,
      relaxAll, relaxEdge, relaxDir, updDist, setA, mergeMin, List.filter, wSeg, nearestStep,
      farGeo, farLoc, List.enum, List.enumFrom]

/-- Witness for the amended C1: a manzana intersecting the corridor is
served. -/
theorem c1_witness :
    0 ∈ analyzeWithNetwork farGeo (buildNetwork [wSeg])
      [({ geomG := (), cells := [] } : Manzana Unit)] () 700 [] := by
  refine c1_direct_corridor_manzana_served farGeo (buildNetwork [wSeg])
    [{ geomG := (), cells := [] }] () 700 [] 0 { geomG := (), cells := [] } ?hmem rfl
  simp [List.enum, List.enumFrom]

/-! ### Edges between a fixed node pair (claim C2) -/

/-- Whether a road-segment row joins the unordered node pair `{u, v}`. -/
def segBetweenB (u v : ℕ) (s : RoadSegment) : Bool :=
  (decide (s.unionIni = u) && decide (s.unionFin = v)) ||
  (decide (s.unionIni = v) && decide (s.unionFin = u))

/-- Whether the builder keeps a row: non-null geometry with at least two
coordinates. -/
def segIsValid (s : RoadSegment) : Bool :=
  match s.geom with
  | none => false
  | some g => !decide ((builderCoords g).length < 2)

theorem edgeBetweenB_update (a b u v : ℕ) (w : ℚ) (geo : Option SegGeom) (e : Edge) :
    edgeBetweenB a b
        (if edgeBetweenB u v e then { e with weight := w, geometry := geo } else e) =
      edgeBetweenB a b e := by
  by_cases h : edgeBetweenB u v e
  · rw [if_pos h]
    rfl
  · rw [if_neg h]

theorem edgeBetweenB_trans (u v a b : ℕ) (w : ℚ) (geo : Option SegGeom) (e : Edge)
    (h1 : edgeBetweenB u v e = true) (h2 : edgeBetweenB a b e = true) :
    edgeBetweenB a b ⟨u, v, w, geo⟩ = true := by
  simp only [edgeBetweenB, Bool.or_eq_true, Bool.and_eq_true, decide_eq_true_iff] at h1 h2 ⊢
  omega

theorem edgeBetweenB_congr (a b u v : ℕ) (w : ℚ) (geo : Option SegGeom)
    (hpair : edgeBetweenB a b ⟨u, v, w, geo⟩ = true) (e : Edge) :
    edgeBetweenB a b e = edgeBetweenB u v e := by
  simp only [edgeBetweenB, Bool.or_eq_true, Bool.and_eq_true, decide_eq_true_iff] at hpair
  rw [Bool.eq_iff_iff]
  simp only [edgeBetweenB, Bool.or_eq_true, Bool.and_eq_true, decide_eq_true_iff]
  constructor <;> intro h <;> omega

/-- After `add_edge` on the pair `{u, v}`, there is exactly one edge
between that pair and it carries the added weight. -/
theorem addEdge_pair_weights (g : List Edge) (ui vi : ℕ) (w : ℚ) (geo : Option SegGeom)
    (a b : ℕ) (hpair : edgeBetweenB a b ⟨ui, vi, w, geo⟩ = true)
    (hlen : (g.filter (edgeBetweenB a b)).length ≤ 1) :
    ((addEdge g ui vi w geo).filter (edgeBetweenB a b)).map (fun e => e.weight) = [w] := by
  have hco : ∀ e : Edge, edgeBetweenB a b e = edgeBetweenB ui vi e :=
    edgeBetweenB_congr a b ui vi w geo hpair
  unfold addEdge
  by_cases hany : g.any (edgeBetweenB ui vi)
  · rw [if_pos hany]
    rw [List.filter_map]
    have hstep : ∀ e ∈ g,
        ((fun e => edgeBetweenB a b e) ∘ fun e =>
          if edgeBetweenB ui vi e then { e with weight := w, geometry := geo } else e) e =
        edgeBetweenB ui vi e := by
      intro e _
      show edgeBetweenB a b
        (if edgeBetweenB ui vi e then { e with weight := w, geometry := geo } else e) = _
      rw [edgeBetweenB_update, hco]
    rw [List.filter_congr hstep]
    rcases List.any_eq_true.mp hany with ⟨e0, he0, hb0⟩
    have hfeq : g.filter (edgeBetweenB a b) = g.filter (edgeBetweenB ui vi) :=
      List.filter_congr (fun e _ => hco e)
    have hlen1 : (g.filter (edgeBetweenB ui vi)).length = 1 := by
      have hle : (g.filter (edgeBetweenB ui vi)).length ≤ 1 := by
        rw [← hfeq]
        exact hlen
      have hmem : e0 ∈ g.filter (edgeBetweenB ui vi) := List.mem_filter.mpr ⟨he0, hb0⟩
      have hge : 0 < (g.filter (edgeBetweenB ui vi)).length :=
        List.length_pos.mpr (List.ne_nil_of_mem hmem)
      omega
    rcases List.length_eq_one.mp hlen1 with ⟨e1, he1⟩
    rw [he1]
    have hb1 : edgeBetweenB ui vi e1 = true := by
      have : e1 ∈ g.filter (edgeBetweenB ui vi) := by
        rw [he1]
        exact List.mem_singleton.mpr rfl
      exact (List.mem_filter.mp this).2
    simp [hb1]
  · rw [if_neg hany]
    rw [List.filter_append]
    have hg : g.filter (edgeBetweenB a b) = [] := by
      rw [List.filter_eq_nil_iff]
      intro e he hbe
      rw [hco e] at hbe
      exact hany (List.any_eq_true.mpr ⟨e, he, hbe⟩)
    have hone : List.filter (edgeBetweenB a b) [(⟨ui, vi, w, geo⟩ : Edge)] =
        [⟨ui, vi, w, geo⟩] := by
      simp [hpair]
    rw [hg, hone]
    rfl

/-- `add_edge` on one pair leaves the edges between any other pair
untouched. -/
theorem addEdge_other_weights (g : List Edge) (ui vi : ℕ) (w : ℚ) (geo : Option SegGeom)
    (a b : ℕ) (hpair : edgeBetweenB a b ⟨ui, vi, w, geo⟩ = false) :
    (addEdge g ui vi w geo).filter (edgeBetweenB a b) = g.filter (edgeBetweenB a b) := by
  unfold addEdge
  by_cases hany : g.any (edgeBetweenB ui vi)
  · rw [if_pos hany]
    rw [List.filter_map]
    have hstep : ∀ e ∈ g,
        ((fun e => edgeBetweenB a b e) ∘ fun e =>
          if edgeBetweenB ui vi e then { e with weight := w, geometry := geo } else e) e =
        edgeBetweenB a b e := by
      intro e _
      exact edgeBetweenB_update a b ui vi w geo e
    rw [List.filter_congr hstep]
    have hid : ∀ e ∈ g.filter (edgeBetweenB a b),
        (fun e => if edgeBetweenB ui vi e then { e with weight := w, geometry := geo } else e) e
          = e := by
      intro e he
      have hab : edgeBetweenB a b e = true := (List.mem_filter.mp he).2
      by_cases hbe : edgeBetweenB ui vi e
      · have := edgeBetweenB_trans ui vi a b w geo e hbe hab
        rw [hpair] at this
        exact Bool.noConfusion this
      · simp [hbe]
    rw [List.map_congr_left hid]
    simp
  · rw [if_neg hany, List.filter_append]
    have hone : List.filter (edgeBetweenB a b) [(⟨ui, vi, w, geo⟩ : Edge)] = [] := by
      simp [hpair]
    rw [hone, List.append_nil]

theorem buildStep_eq_invalid (st : NetworkState) (s : RoadSegment)
    (h : segIsValid s = false) : buildStep st s = st := by
  unfold buildStep
  unfold segIsValid at h
  rcases hg : s.geom with _ | g
  · simp only [hg]
  · rw [hg] at h
    simp only [Bool.not_eq_false', decide_eq_true_iff] at h
    simp only [hg, if_pos h]

theorem buildStep_graph_valid (st : NetworkState) (s : RoadSegment)
    (h : segIsValid s = true) :
    (buildStep st s).graph = addEdge st.graph s.unionIni s.unionFin s.longitud s.geom := by
  unfold buildStep
  unfold segIsValid at h
  rcases hg : s.geom with _ | g
  · rw [hg] at h
    exact Bool.noConfusion h
  · rw [hg] at h
    simp only [Bool.not_eq_true', decide_eq_false_iff_not] at h
    simp only [hg, if_neg h]

theorem getLast?_cons_form {α : Type} (a : α) (l : List α) :
    (a :: l).getLast? =
      match l.getLast? with
      | none => some a
      | some x => some x := by
  cases l with
  | nil => rfl
  | cons b m =>
    rw [List.getLast?_cons_cons]
    rcases hm : (b :: m).getLast? with _ | x
    · rw [List.getLast?_eq_none_iff] at hm
      exact List.noConfusion hm
    · rfl

/-- The edges the fold leaves between a pair `{u, v}`: the weight list is
the singleton of the last valid row between that pair, or the initial
state's edge list when no such row exists. -/
theorem buildFold_edgesBetween (u v : ℕ) (segs : List RoadSegment) :
    ∀ st : NetworkState, (st.graph.filter (edgeBetweenB u v)).length ≤ 1 →
      ((segs.foldl buildStep st).graph.filter (edgeBetweenB u v)).map (fun e => e.weight) =
        (match (segs.filter (fun s => segIsValid s && segBetweenB u v s)).getLast? with
         | none => (st.graph.filter (edgeBetweenB u v)).map (fun e => e.weight)
         | some s0 => [s0.longitud]) := by
  induction segs with
  | nil =>
    intro st _
    rfl
  | cons s rest ih =>
    intro st hlen
    rw [List.foldl_cons]
    by_cases hv : segIsValid s
    · have hpair0 : edgeBetweenB u v
          ⟨s.unionIni, s.unionFin, s.longitud, s.geom⟩ = segBetweenB u v s := rfl
      by_cases hb : segBetweenB u v s
      · have hfil : (s :: rest).filter (fun s => segIsValid s && segBetweenB u v s) =
            s :: rest.filter (fun s => segIsValid s && segBetweenB u v s) := by
          rw [List.filter_cons]
          simp [hv, hb]
        have hg1 := buildStep_graph_valid st s hv
        have hpair : edgeBetweenB u v ⟨s.unionIni, s.unionFin, s.longitud, s.geom⟩ = true := by
          rw [hpair0]
          exact hb
        have hnew := addEdge_pair_weights st.graph s.unionIni s.unionFin s.longitud s.geom
          u v hpair hlen
        have hinv1 : ((buildStep st s).graph.filter (edgeBetweenB u v)).length ≤ 1 := by
          rw [hg1]
          have hlenmap := congrArg List.length hnew
          rw [List.length_map] at hlenmap
          simp at hlenmap
          omega
        rw [ih (buildStep st s) hinv1, hfil, getLast?_cons_form]
        rcases hlast : (rest.filter (fun s => segIsValid s && segBetweenB u v s)).getLast?
          with _ | s0
        · dsimp only
          rw [hg1]
          exact hnew
        · rfl
      · have hfil : (s :: rest).filter (fun s => segIsValid s && segBetweenB u v s) =
            rest.filter (fun s => segIsValid s && segBetweenB u v s) := by
          rw [List.filter_cons]
          simp [hb]
        have hg1 := buildStep_graph_valid st s hv
        have hpairf : edgeBetweenB u v ⟨s.unionIni, s.unionFin, s.longitud, s.geom⟩ = false := by
          rw [hpair0]
          exact Bool.eq_false_iff.mpr hb
        have hsame : (buildStep st s).graph.filter (edgeBetweenB u v) =
            st.graph.filter (edgeBetweenB u v) := by
          rw [hg1]
          exact addEdge_other_weights st.graph s.unionIni s.unionFin s.longitud s.geom
            u v hpairf
        have hinv1 : ((buildStep st s).graph.filter (edgeBetweenB u v)).length ≤ 1 := by
          rw [hsame]
          exact hlen
        rw [ih (buildStep st s) hinv1, hfil]
        rcases hlast : (rest.filter (fun s => segIsValid s && segBetweenB u v s)).getLast?
          with _ | s0
        · dsimp only
          rw [hsame]
        · rfl
    · have hv1 : segIsValid s = false := Bool.eq_false_iff.mpr hv
      have hstep : buildStep st s = st := buildStep_eq_invalid st s hv1
      have hfil : (s :: rest).filter (fun s => segIsValid s && segBetweenB u v s) =
          rest.filter (fun s => segIsValid s && segBetweenB u v s) := by
        rw [List.filter_cons]
        simp [hv1]
      rw [hstep, hfil]
      exact ih st hlen

/-- A second segment between the same endpoints as `wSeg`, with its own
length 20 and geometry. -/
def wSegB : RoadSegment := ⟨0, 1, 20, some (.line [(0, 0), (5, 5), (10, 0)]), none, none, none⟩

/-- Counterexample for C2 as stated: loading two distinct parallel
segments between nodes 0 and 1 (lengths 10 and 20) produces a graph with a
single edge between that pair, carrying only the second segment's length —
`networkx.Graph.add_edge` overwrites, so no parallel edges survive and the
first length is lost. -/
theorem c2_counterexample :
    (buildNetwork [wSeg, wSegB]).graph.map (fun e => (e.u, e.v, e.weight)) = [(0, 1, 20)] := by
  norm_num [buildNetwork, buildStep, builderCoords, addEdge, edgeBetweenB, lookupP,
    List.find?, wSeg, wSegB]

/-- C2 (amended): for every input row collection and node pair, the built
graph keeps at most one edge between the pair, and its weight is the
`LONGITUD` of the last valid (non-degenerate) row between those endpoints;
earlier parallel rows are overwritten. -/
theorem c2_last_segment_wins (segs : List RoadSegment) (u v : ℕ) :
    ((buildNetwork segs).graph.filter (edgeBetweenB u v)).map (fun e => e.weight) =
      (match (segs.filter (fun s => segIsValid s && segBetweenB u v s)).getLast? with
       | none => []
       | some s0 => [s0.longitud]) := by
  have h := buildFold_edgesBetween u v segs { graph := [], nodeCoords := [] } (by simp)
  rw [buildNetwork]
  rw [h]
  rcases hlast : (segs.filter (fun s => segIsValid s && segBetweenB u v s)).getLast?
    with _ | s0 <;> rfl

/-- C9: the aggregator computes the disability percentage by division only
when the summed total population is strictly positive, and otherwise
leaves it 0. -/
theorem c9_disability_guard (rows : List (List (Option ℚ))) :
    ((aggregatePopulation rows).poblacionTotal ≤ 0 →
      (aggregatePopulation rows).discapacidadPorcentaje = 0) ∧
    (0 < (aggregatePopulation rows).poblacionTotal →
      (aggregatePopulation rows).discapacidadPorcentaje =
        round2 (((aggregatePopulation rows).discapacidadTotal : ℚ) /
          ((aggregatePopulation rows).poblacionTotal : ℚ) * 100)) := by
  unfold aggregatePopulation
  dsimp only
  constructor
  · intro h
    rw [if_neg (not_lt.mpr h)]
  · intro h
    rw [if_pos h]

/-- A census row with total population 100 (position 6) and disability
count 0 (position 19). -/
def wRow : List (Option ℚ) :=
  [none, none, none, none, none, none, some 100, some 40, none, some 60,
   none, some 10, none, some 30, none, some 40, none, some 20, none, some 0]

/-- Witness for C9: population 100, disability 0 gives percentage 0 with
no division error. -/
theorem c9_witness :
    0 < (aggregatePopulation [wRow]).poblacionTotal ∧
    (aggregatePopulation [wRow]).discapacidadPorcentaje = 0 := by
  have hpos : 0 < (aggregatePopulation [wRow]).poblacionTotal := by
    norm_num [aggregatePopulation, cellAt, toIntCell, truncQ, wRow]
  refine ⟨hpos, ?_⟩
  rw [(c9_disability_guard [wRow]).2 hpos]
  norm_num [aggregatePopulation, cellAt, toIntCell, truncQ, wRow, round2]

/-! ### Category-map accounting (claim C4) -/

theorem sumVals_append_single (m : List (String × ℝ)) (k : String) (x : ℝ) :
    sumVals (m ++ [(k, x)]) = sumVals m + x := by
  unfold sumVals
  rw [List.map_append, List.sum_append]
  simp

theorem sumVals_addTo (m : List (String × ℝ)) (k : String) (x : ℝ)
    (hnd : (m.map Prod.fst).Nodup) : sumVals (addTo m k x) = sumVals m + x := by
  induction m with
  | nil =>
    unfold addTo
    simp [sumVals]
  | cons pr rest ih =>
    rcases pr with ⟨k0, v0⟩
    rw [List.map_cons] at hnd
    have hk0 : k0 ∉ rest.map Prod.fst := (List.nodup_cons.mp hnd).1
    have hrest := (List.nodup_cons.mp hnd).2
    unfold addTo
    by_cases hk : k0 = k
    · subst hk
      have hany : (((k0, v0) :: rest).any (fun pr => pr.1 = k0)) = true := by
        simp
      rw [if_pos hany, List.map_cons]
      rw [if_pos rfl]
      have hrid : rest.map (fun pr => if pr.1 = k0 then (pr.1, pr.2 + x) else pr) = rest := by
        have hfix : ∀ pr ∈ rest, (if pr.1 = k0 then (pr.1, pr.2 + x) else pr) = pr := by
          intro pr hpr
          rw [if_neg]
          intro hh
          exact hk0 (List.mem_map.mpr ⟨pr, hpr, hh⟩)
        rw [List.map_congr_left hfix]
        simp
      rw [hrid]
      simp [sumVals]
      ring
    · have hanyc : (((k0, v0) :: rest).any (fun pr => pr.1 = k)) =
          rest.any (fun pr => pr.1 = k) := by
        simp [hk]
      rw [hanyc]
      by_cases hany : rest.any (fun pr => pr.1 = k)
      · rw [if_pos hany, List.map_cons, if_neg hk]
        have haddTo : addTo rest k x =
            rest.map (fun pr => if pr.1 = k then (pr.1, pr.2 + x) else pr) := by
          unfold addTo
          rw [if_pos hany]
        rw [← haddTo]
        have h1 : sumVals ((k0, v0) :: addTo rest k x) = v0 + sumVals (addTo rest k x) := by
          simp [sumVals]
        have h2 : sumVals ((k0, v0) :: rest) = v0 + sumVals rest := by
          simp [sumVals]
        rw [h1, ih hrest, h2]
        ring
      · rw [if_neg hany]
        exact sumVals_append_single ((k0, v0) :: rest) k x

theorem keysNodup_addTo (m : List (String × ℝ)) (k : String) (x : ℝ)
    (hnd : (m.map Prod.fst).Nodup) : ((addTo m k x).map Prod.fst).Nodup := by
  unfold addTo
  by_cases hany : m.any (fun pr => pr.1 = k)
  · rw [if_pos hany]
    have : (m.map (fun pr => if pr.1 = k then (pr.1, pr.2 + x) else pr)).map Prod.fst =
        m.map Prod.fst := by
      rw [List.map_map]
      refine List.map_congr_left ?hfix
      intro pr _
      by_cases h : pr.1 = k <;> simp [h]
    rw [this]
    exact hnd
  · rw [if_neg hany]
    rw [List.map_append]
    have hone : List.map Prod.fst [(k, x)] = [k] := rfl
    rw [hone]
    refine List.Nodup.append hnd (List.nodup_singleton k) ?hdj
    intro a ha hb
    rw [List.mem_singleton] at hb
    subst hb
    rcases List.mem_map.mp ha with ⟨pr, hpr, hfst⟩
    exact absurd (List.any_eq_true.mpr ⟨pr, hpr, by simp [hfst]⟩) hany

/-- The loop invariant of `RoadAnalyzer.analyze`: each processed unique
row adds its own length to `superficie` and to `administracion`, and the
precomputed total is untouched. -/
theorem analyzeFold_invariant (rnc : List RoadSegment) (idxs : List ℕ) :
    ∀ st0 : RoadStats,
      (st0.superficie.map Prod.fst).Nodup →
      (st0.administracion.map Prod.fst).Nodup →
      (sumVals (idxs.foldl (analyzeStep rnc) st0).superficie =
          sumVals st0.superficie +
            (idxs.filterMap (fun i => (rnc.get? i).map segLengthKm)).sum) ∧
      (sumVals (idxs.foldl (analyzeStep rnc) st0).administracion =
          sumVals st0.administracion +
            (idxs.filterMap (fun i => (rnc.get? i).map segLengthKm)).sum) ∧
      (idxs.foldl (analyzeStep rnc) st0).distanciaRncKm = st0.distanciaRncKm := by
  induction idxs with
  | nil =>
    intro st0 _ _
    simp
  | cons i rest ih =>
    intro st0 hs ha
    rw [List.foldl_cons, List.filterMap_cons]
    rcases hrow : rnc.get? i with _ | row
    · have hstep : analyzeStep rnc st0 i = st0 := by
        unfold analyzeStep
        rw [hrow]
      rw [hstep]
      exact ih st0 hs ha
    · have hstep : analyzeStep rnc st0 i =
          { distanciaRncKm := st0.distanciaRncKm
            superficie := addTo st0.superficie (surfaceKey row) (segLengthKm row)
            administracion := addTo st0.administracion (adminKey row) (segLengthKm row)
            tipoVialidad := addTo st0.tipoVialidad (tipoKey row) (segLengthKm row)
            naSuperficieKm := st0.naSuperficieKm +
              (if isNAVal row.condPav then segLengthKm row else 0)
            naAdministracionKm := st0.naAdministracionKm +
              (if isNAVal row.administra then segLengthKm row else 0) } := by
        unfold analyzeStep
        rw [hrow]
      have hns : ((analyzeStep rnc st0 i).superficie.map Prod.fst).Nodup := by
        rw [hstep]
        exact keysNodup_addTo _ _ _ hs
      have hna : ((analyzeStep rnc st0 i).administracion.map Prod.fst).Nodup := by
        rw [hstep]
        exact keysNodup_addTo _ _ _ ha
      rcases ih (analyzeStep rnc st0 i) hns hna with ⟨ih1, ih2, ih3⟩
      refine ⟨?c1, ?c2, ?c3⟩
      · rw [ih1, hstep]
        dsimp only
        rw [sumVals_addTo _ _ _ hs]
        simp only [hrow, Option.map, List.sum_cons]
        ring
      · rw [ih2, hstep]
        dsimp only
        rw [sumVals_addTo _ _ _ ha]
        simp only [hrow, Option.map, List.sum_cons]
        ring
      · rw [ih3, hstep]

/-- C4: the per-surface and per-administration length maps each sum to the
total matched length, the total is the sum of the unique matched rows' own
lengths, and a row matched by additional track points contributes nothing
more. -/
theorem c4_length_accounting (rnc : List RoadSegment) (matched : List ℕ) :
    sumVals (analyzeRoads rnc matched).superficie =
        (analyzeRoads rnc matched).distanciaRncKm ∧
    sumVals (analyzeRoads rnc matched).administracion =
        (analyzeRoads rnc matched).distanciaRncKm ∧
    (analyzeRoads rnc matched).distanciaRncKm =
        ((matched.dedup).filterMap (fun i => (rnc.get? i).map segLengthKm)).sum ∧
    (∀ i ∈ matched, analyzeRoads rnc (i :: matched) = analyzeRoads rnc matched) := by
  have hinv := analyzeFold_invariant rnc matched.dedup
    { distanciaRncKm :=
        ((matched.dedup.filterMap (fun i => (rnc.get? i).map segLengthKm)).sum)
      superficie := [], administracion := [], tipoVialidad := []
      naSuperficieKm := 0, naAdministracionKm := 0 }
    (by simp) (by simp)
  rcases hinv with ⟨h1, h2, h3⟩
  have hr : analyzeRoads rnc matched = matched.dedup.foldl (analyzeStep rnc)
      { distanciaRncKm :=
          ((matched.dedup.filterMap (fun i => (rnc.get? i).map segLengthKm)).sum)
        superficie := [], administracion := [], tipoVialidad := []
        naSuperficieKm := 0, naAdministracionKm := 0 } := rfl
  refine ⟨?s1, ?s2, ?s3, ?s4⟩
  · rw [hr, h1, h3]
    simp [sumVals]
  · rw [hr, h2, h3]
    simp [sumVals]
  · rw [hr, h3]
  · intro i hi
    unfold analyzeRoads
    rw [List.dedup_cons_of_mem hi]

/-- A one-row road network for the C4 witness: a 1-degree segment along
the x-axis (length 111 km) with explicit surface and road-class labels. -/
def wRnc : List RoadSegment :=
  [⟨0, 1, 10, some (.line [(0, 0), (1, 0)]), some "Con pavimento", none, some "Calle"⟩]

/-- Witness for C4: matching the single row twice changes nothing, the
surface map sums to the total, and the total evaluates to 111 km. -/
theorem c4_witness :
    analyzeRoads wRnc (0 :: [0]) = analyzeRoads wRnc [0] ∧
    sumVals (analyzeRoads wRnc [0]).superficie = (analyzeRoads wRnc [0]).distanciaRncKm ∧
    (analyzeRoads wRnc [0]).distanciaRncKm = 111 := by
  refine ⟨(c4_length_accounting wRnc [0]).2.2.2 0 (by simp), (c4_length_accounting wRnc [0]).1,
    ?eval⟩
  rw [(c4_length_accounting wRnc [0]).2.2.1]
  norm_num [wRnc, segLengthKm, segGeomLength, polylineLength, sqDist, List.dedup,
    List.filterMap_cons, List.filterMap_nil, List.getElem?_cons_zero, Real.sqrt_one]

/-! ### Map-matcher lemmas (claim C6) -/

theorem sqDistPointSeg_nonneg (p a b : Pt) : 0 ≤ sqDistPointSeg p a b := by
  unfold sqDistPointSeg
  by_cases h : sqDist a b = 0
  · rw [if_pos h]
    exact sqDist_nonneg p a
  · rw [if_neg h]
    exact sqDist_nonneg p _

theorem sqDistPolyline_nonneg (p : Pt) :
    ∀ (pts : List Pt) (d : ℚ), sqDistPolyline p pts = some d → 0 ≤ d := by
  intro pts
  induction pts with
  | nil =>
    intro d h
    simp [sqDistPolyline] at h
  | cons a tl ih =>
    intro d h
    cases tl with
    | nil =>
      simp only [sqDistPolyline] at h
      injection h with h
      rw [← h]
      exact sqDist_nonneg p a
    | cons b rest =>
      simp only [sqDistPolyline] at h
      rcases hrec : sqDistPolyline p (b :: rest) with _ | m
      · rw [hrec] at h
        exact Option.noConfusion h
      · rw [hrec] at h
        injection h with h
        rw [← h]
        exact le_min (sqDistPointSeg_nonneg p a b) (ih m hrec)

theorem foldMin_nonneg :
    ∀ (l : List ℚ) (acc : Option ℚ), (∀ x ∈ l, 0 ≤ x) → (∀ a, acc = some a → 0 ≤ a) →
      ∀ d, l.foldl (fun acc d =>
          match acc with
          | none => some d
          | some m => some (min m d)) acc = some d → 0 ≤ d := by
  intro l
  induction l with
  | nil =>
    intro acc _ hacc d h
    rw [List.foldl_nil] at h
    exact hacc d h
  | cons x rest ih =>
    intro acc hl hacc d h
    rw [List.foldl_cons] at h
    refine ih _ (fun y hy => hl y (List.mem_cons_of_mem _ hy)) ?hstep d h
    intro a ha
    have hx : 0 ≤ x := hl x (List.mem_cons_self _ _)
    rcases acc with _ | m
    · injection ha with ha
      rw [← ha]
      exact hx
    · injection ha with ha
      rw [← ha]
      exact le_min (hacc m rfl) hx

theorem sqDistGeom_nonneg (p : Pt) (g : SegGeom) (d : ℚ)
    (h : sqDistGeom p g = some d) : 0 ≤ d := by
  cases g with
  | line pts => exact sqDistPolyline_nonneg p pts d h
  | multi parts =>
    unfold sqDistGeom at h
    refine foldMin_nonneg (parts.filterMap (sqDistPolyline p)) none ?hl ?hacc d h
    · intro x hx
      rcases List.mem_filterMap.mp hx with ⟨pts, _, hpts⟩
      exact sqDistPolyline_nonneg p pts x hpts
    · intro a ha
      exact Option.noConfusion ha

theorem bestCandidate_mem (p : Pt) :
    ∀ (cand : List (ℕ × SegGeom)) (i : ℕ) (sq : ℚ), bestCandidate p cand = some (i, sq) →
      ∃ g, (i, g) ∈ cand ∧ sqDistGeom p g = some sq := by
  intro cand
  induction cand with
  | nil =>
    intro i sq h
    simp [bestCandidate] at h
  | cons pr rest ih =>
    rcases pr with ⟨j, g⟩
    intro i sq h
    simp only [bestCandidate] at h
    rcases hg : sqDistGeom p g with _ | d <;> rw [hg] at h
    · dsimp only at h
      rcases ih i sq h with ⟨g1, hg1, hd1⟩
      exact ⟨g1, List.mem_cons_of_mem _ hg1, hd1⟩
    · rcases hrest : bestCandidate p rest with _ | pr0 <;> rw [hrest] at h <;> dsimp only at h
      · injection h with h
        have hi : j = i := congrArg Prod.fst h
        have hd : d = sq := congrArg Prod.snd h
        refine ⟨g, ?_, by rw [hg, hd]⟩
        rw [← hi]
        exact List.mem_cons_self _ _
      · rcases pr0 with ⟨i0, d0⟩
        dsimp only at h
        by_cases hlt : d0 < d
        · rw [if_pos hlt] at h
          injection h with h
          have hi : i0 = i := congrArg Prod.fst h
          have hd2 : d0 = sq := congrArg Prod.snd h
          rcases ih i0 d0 hrest with ⟨g1, hg1, hd1⟩
          refine ⟨g1, List.mem_cons_of_mem _ ?hm, ?hd⟩
          · rw [← hi]
            exact hg1
          · rw [← hd2]
            exact hd1
        · rw [if_neg hlt] at h
          injection h with h
          have hi : j = i := congrArg Prod.fst h
          have hd : d = sq := congrArg Prod.snd h
          refine ⟨g, ?_, by rw [hg, hd]⟩
          rw [← hi]
          exact List.mem_cons_self _ _

theorem bestCandidate_none (p : Pt) :
    ∀ cand : List (ℕ × SegGeom), bestCandidate p cand = none ↔
      ∀ j g, (j, g) ∈ cand → sqDistGeom p g = none := by
  intro cand
  induction cand with
  | nil => simp [bestCandidate]
  | cons pr rest ih =>
    rcases pr with ⟨j0, g0⟩
    simp only [bestCandidate]
    rcases hg : sqDistGeom p g0 with _ | d
    · dsimp only
      constructor
      · intro h j g hjg
        rcases List.mem_cons.mp hjg with heq | hmem
        · have : g = g0 := congrArg Prod.snd heq
          rw [this, hg]
        · exact (ih.mp h) j g hmem
      · intro h
        exact ih.mpr (fun j g hjg => h j g (List.mem_cons_of_mem _ hjg))
    · rcases hrest : bestCandidate p rest with _ | pr0
      · dsimp only
        constructor
        · intro h
          exact Option.noConfusion h
        · intro h
          have := h j0 g0 (List.mem_cons_self _ _)
          rw [hg] at this
          exact Option.noConfusion this
      · rcases pr0 with ⟨i0, d0⟩
        dsimp only
        constructor
        · intro h
          by_cases hlt : d0 < d
          · rw [if_pos hlt] at h
            exact Option.noConfusion h
          · rw [if_neg hlt] at h
            exact Option.noConfusion h
        · intro h
          have := h j0 g0 (List.mem_cons_self _ _)
          rw [hg] at this
          exact Option.noConfusion this

theorem bestCandidate_min (p : Pt) :
    ∀ (cand : List (ℕ × SegGeom)) (i : ℕ) (sq : ℚ), bestCandidate p cand = some (i, sq) →
      ∀ j g d, (j, g) ∈ cand → sqDistGeom p g = some d → sq ≤ d := by
  intro cand
  induction cand with
  | nil =>
    intro i sq h
    simp [bestCandidate] at h
  | cons pr rest ih =>
    rcases pr with ⟨j0, g0⟩
    intro i sq h j g d hjg hd
    simp only [bestCandidate] at h
    rcases List.mem_cons.mp hjg with heq | hmem
    · -- the head candidate
      have hgg : g = g0 := congrArg Prod.snd heq
      rw [hgg] at hd
      rw [hd] at h
      rcases hrest : bestCandidate p rest with _ | pr0 <;> rw [hrest] at h <;> dsimp only at h
      · injection h with h
        exact le_of_eq (congrArg Prod.snd h).symm
      · rcases pr0 with ⟨i0, d0⟩
        dsimp only at h
        by_cases hlt : d0 < d
        · rw [if_pos hlt] at h
          injection h with h
          have : d0 = sq := congrArg Prod.snd h
          rw [← this]
          exact le_of_lt hlt
        · rw [if_neg hlt] at h
          injection h with h
          exact le_of_eq (congrArg Prod.snd h).symm
    · -- a candidate in the tail
      rcases hg0 : sqDistGeom p g0 with _ | dh <;> rw [hg0] at h
      · dsimp only at h
        exact ih i sq h j g d hmem hd
      · rcases hrest : bestCandidate p rest with _ | pr0 <;> rw [hrest] at h <;> dsimp only at h
        · rw [(bestCandidate_none p rest).mp hrest j g hmem] at hd
          exact Option.noConfusion hd
        · rcases pr0 with ⟨i0, d0⟩
          dsimp only at h
          have hd0 : d0 ≤ d := ih i0 d0 hrest j g d hmem hd
          by_cases hlt : d0 < dh
          · rw [if_pos hlt] at h
            injection h with h
            have : d0 = sq := congrArg Prod.snd h
            rw [← this]
            exact hd0
          · rw [if_neg hlt] at h
            injection h with h
            have : dh = sq := congrArg Prod.snd h
            rw [← this]
            exact le_trans (le_of_not_lt hlt) hd0

/-- The meter-scaled comparison of the matcher: the recorded distance
`sqrt sq * 111000` is within the tolerance iff the squared degree distance
is within the squared degree tolerance. -/
theorem sqrt_scale_le (sq tolM : ℚ) (_hsq : 0 ≤ sq) (htol : 0 ≤ tolM) :
    Real.sqrt (sq : ℝ) * 111000 ≤ (tolM : ℝ) ↔ sq ≤ (tolM / 111000) ^ 2 := by
  have h111 : (0 : ℝ) < 111000 := by norm_num
  constructor
  · intro h
    have hsqrt : Real.sqrt (sq : ℝ) ≤ ((tolM : ℝ) / 111000) := by
      rw [le_div_iff₀ h111]
      exact h
    rcases Real.sqrt_le_iff.mp hsqrt with ⟨hy, hx⟩
    have : (sq : ℝ) ≤ (((tolM / 111000 : ℚ)) : ℝ) ^ 2 := by
      push_cast
      exact hx
    exact_mod_cast this
  · intro h
    have hx : (sq : ℝ) ≤ ((tolM : ℝ) / 111000) ^ 2 := by
      have : ((sq : ℚ) : ℝ) ≤ (((tolM / 111000 : ℚ) ^ 2 : ℚ) : ℝ) := by
        exact_mod_cast h
      push_cast at this
      exact this
    have hy : (0 : ℝ) ≤ (tolM : ℝ) / 111000 := by
      apply div_nonneg _ (le_of_lt h111)
      exact_mod_cast htol
    have hsqrt : Real.sqrt (sq : ℝ) ≤ ((tolM : ℝ) / 111000) :=
      Real.sqrt_le_iff.mpr ⟨hy, hx⟩
    rw [le_div_iff₀ h111] at hsqrt
    exact hsqrt

/-- C6: the matcher selects the candidate of minimum point-to-geometry
distance among the rows whose bounding box meets the tolerance rectangle,
and accepts the match exactly when that minimum distance in meters
(`sqrt sq * 111000`) is at most the tolerance; otherwise the point is
unmatched. -/
theorem c6_matcher_min_distance (rnc : List RoadSegment) (p : Pt) (tolM : ℚ)
    (htol : 0 ≤ tolM) :
    (∀ i sq, matchPoint rnc p tolM = some (i, sq) →
      (∃ g, (i, g) ∈ matchCandidates rnc p (tolM / 111000) ∧ sqDistGeom p g = some sq) ∧
      (∀ j g d, (j, g) ∈ matchCandidates rnc p (tolM / 111000) →
        sqDistGeom p g = some d → sq ≤ d) ∧
      Real.sqrt (sq : ℝ) * 111000 ≤ (tolM : ℝ)) ∧
    (matchPoint rnc p tolM = none ↔
      bestCandidate p (matchCandidates rnc p (tolM / 111000)) = none ∨
      ∃ i sq, bestCandidate p (matchCandidates rnc p (tolM / 111000)) = some (i, sq) ∧
        (tolM : ℝ) < Real.sqrt (sq : ℝ) * 111000) := by
  have hmp : matchPoint rnc p tolM =
      match bestCandidate p (matchCandidates rnc p (tolM / 111000)) with
      | none => none
      | some (i, sq) => if sq ≤ (tolM / 111000) ^ 2 then some (i, sq) else none := rfl
  rcases hbc : bestCandidate p (matchCandidates rnc p (tolM / 111000)) with _ | pr
  · rw [hbc] at hmp
    dsimp only at hmp
    constructor
    · intro i sq h
      rw [hmp] at h
      exact Option.noConfusion h
    · rw [hmp]
      simp
  · rcases pr with ⟨i0, sq0⟩
    rw [hbc] at hmp
    dsimp only at hmp
    have hsq0 : 0 ≤ sq0 := by
      rcases bestCandidate_mem p _ i0 sq0 hbc with ⟨g, _, hg⟩
      exact sqDistGeom_nonneg p g sq0 hg
    have hkey := sqrt_scale_le sq0 tolM hsq0 htol
    by_cases hacc : sq0 ≤ (tolM / 111000) ^ 2
    · have hmp1 : matchPoint rnc p tolM = some (i0, sq0) := by
        rw [hmp, if_pos hacc]
      constructor
      · intro i sq h
        rw [hmp1] at h
        injection h with h
        have hi : i0 = i := congrArg Prod.fst h
        have hs : sq0 = sq := congrArg Prod.snd h
        rw [← hi, ← hs]
        exact ⟨bestCandidate_mem p _ i0 sq0 hbc, bestCandidate_min p _ i0 sq0 hbc,
          hkey.mpr hacc⟩
      · rw [hmp1]
        constructor
        · intro h
          exact Option.noConfusion h
        · rintro (h | ⟨i, sq, hsome, hlt⟩)
          · exact Option.noConfusion h
          · injection hsome with hsome
            have hs : sq0 = sq := congrArg Prod.snd hsome
            rw [← hs] at hlt
            exact absurd (hkey.mpr hacc) (not_le.mpr hlt)
    · have hmp1 : matchPoint rnc p tolM = none := by
        rw [hmp, if_neg hacc]
      constructor
      · intro i sq h
        rw [hmp1] at h
        exact Option.noConfusion h
      · rw [hmp1]
        constructor
        · intro _
          right
          refine ⟨i0, sq0, rfl, ?_⟩
          rcases lt_or_ge (tolM : ℝ) (Real.sqrt (sq0 : ℝ) * 111000) with hlt | hge
          · exact hlt
          · exact absurd (hkey.mp hge) hacc
        · intro _
          rfl

/-- A one-segment network in degree coordinates for the C6 witness: a
road along the x-axis from `(-1, 0)` to `(1, 0)`. -/
def wRncM : List RoadSegment := [⟨0, 1, 2, some (.line [(-1, 0), (1, 0)]), none, none, none⟩]

/-- Witness for C6: with the 50 m tolerance, the track point 40 m from the
segment is matched with recorded distance `sqrt sq * 111000 = 40`, and the
point 60 m away is unmatched (its 50 m query rectangle does not even reach
the segment's bounding box, so the spatial index yields no candidate). -/
theorem c6_witness :
    matchPoint wRncM (0, 40 / 111000) 50 = some (0, (40 / 111000) ^ 2) ∧
    Real.sqrt (((40 / 111000 : ℚ) ^ 2 : ℚ) : ℝ) * 111000 = 40 ∧
    matchPoint wRncM (0, 60 / 111000) 50 = none := by
  have hsqrt40 : Real.sqrt (((40 / 111000 : ℚ) ^ 2 : ℚ) : ℝ) * 111000 = 40 := by
    have : (((40 / 111000 : ℚ) ^ 2 : ℚ) : ℝ) = ((40 : ℝ) / 111000) ^ 2 := by
      push_cast
      ring
    rw [this, Real.sqrt_sq (by norm_num)]
    norm_num
  refine ⟨?m40, hsqrt40, ?m60⟩
  · norm_num [matchPoint, matchCandidates, bestCandidate, sqDistGeom, sqDistPolyline,
      sqDistPointSeg, sqDist, bboxOfGeom, bboxOfPts, bboxIntersects, pointBufferBounds,
      wRncM, List.enum, List.enumFrom, List.filterMap_cons, List.filterMap_nil]
  · refine ((c6_matcher_min_distance wRncM (0, 60 / 111000) 50 (by norm_num)).2).mpr ?hright
    left
    norm_num [matchCandidates, bestCandidate, sqDistGeom, sqDistPolyline,
      sqDistPointSeg, sqDist, bboxOfGeom, bboxOfPts, bboxIntersects, pointBufferBounds,
      wRncM, List.enum, List.enumFrom, List.filterMap_cons, List.filterMap_nil]

end AnalisisRutas
